import Mathlib

/-!
Verification of the multicache S3-FIFO memory engine and its singleflight
layer, shallowly embedded from the Go sources.

The engine (`s3fifo`, `shard`, `entry`, `entryList`, `ghostFreqRing`,
eviction and death-row logic) is translated from the `package multicache`
source. Keys and values are instantiated at `Nat`; the key hasher is kept
as an explicit function parameter (the source stores it as the `hasher`
field of a shard and only its results are observable). Machine integers
that can go negative (`entryList.len`, `totalEntries`) are modelled as
`Int`; the `uint32` frequency counters never exceed `maxFreq = 7` along
any code path, so they are modelled as `Nat`.

Heap entries are modelled by an append-only pool of records indexed by
`Nat` ids; Go pointer equality becomes id equality, and the intrusive
doubly linked lists keep their `prev`/`next` links as `Option Nat` fields
of the pooled records, exactly following the Go list operations (including
their behaviour when `remove` is applied to a detached node). Each shard
owns its pool: entry pointers never cross shards in the source, so this is
observationally identical to one global heap.

Loops (`evictFromSmall`, `evictFromMain`) are given a fuel parameter;
`Res.nofuel` marks exhaustion and `Res.panic` marks a nil-pointer
dereference of a list head (a Go runtime panic).
-/

namespace Multicache

/-- One cache entry, mirroring `entry[K, V]` of the source. `prev`/`next`
are pool ids of the intrusive list neighbours. -/
structure GoEntry where
  key : Nat
  value : Nat
  hash : Nat
  expiryNano : Int
  freq : Nat
  peakFreq : Nat
  inSmall : Bool
  onDeathRow : Bool
  prev : Option Nat
  next : Option Nat

/-- Default entry used for out-of-range pool reads (never reached by the
engine on ids it created). -/
def e0 : GoEntry :=
  { key := 0, value := 0, hash := 0, expiryNano := 0, freq := 0, peakFreq := 0
    inSmall := false, onDeathRow := false, prev := none, next := none }

/-- The heap of entries: an append-only pool, id = index. -/
abbrev Pool := List GoEntry

/-- Read the entry with the given id. -/
def getE (p : Pool) (i : Nat) : GoEntry :=
  List.getD p i e0

/-- Update the entry with the given id. -/
def setE (p : Pool) (i : Nat) (f : GoEntry → GoEntry) : Pool :=
  List.set p i (f (getE p i))

/-- `entryList`: head/tail pointers plus the stored `len` counter, which the
source keeps as a machine int and which can diverge from the actual chain
length when `remove` is misapplied. -/
structure EntryList where
  head : Option Nat
  tail : Option Nat
  len : Int

/-- The zero-valued (empty) `entryList`. -/
def emptyList : EntryList := { head := none, tail := none, len := 0 }

/-- `entryList.pushBack` of the source, acting on the pool and the list. -/
def pushBack (p : Pool) (l : EntryList) (eid : Nat) : Pool × EntryList :=
  let tl := l.tail
  let p := setE p eid (fun e => { e with prev := tl, next := none })
  match tl with
  | some t =>
      (setE p t (fun e => { e with next := some eid }),
        { l with tail := some eid, len := l.len + 1 })
  | none =>
      (p, { head := some eid, tail := some eid, len := l.len + 1 })

/-- `entryList.remove` of the source. Each Go statement is replayed in
order, re-reading the removed entry between steps exactly as the source
does; removing a detached node (both links `none`) empties `head`/`tail`
and still decrements `len`. -/
def listRemove (p : Pool) (l : EntryList) (eid : Nat) : Pool × EntryList :=
  let e := getE p eid
  let (p, l) :=
    match e.prev with
    | some pr => (setE p pr (fun x => { x with next := e.next }), l)
    | none => (p, { l with head := e.next })
  let e2 := getE p eid
  let (p, l) :=
    match e2.next with
    | some nx => (setE p nx (fun x => { x with prev := e2.prev }), l)
    | none => (p, { l with tail := e2.prev })
  let p := setE p eid (fun x => { x with prev := none, next := none })
  (p, { l with len := l.len - 1 })

/-- Modelled from the spec: the bloom filter implementation is not among
the sources (only its call sites are). Per spec section 4.2 it offers
`add(hash)`, `contains(hash)`, `reset()` and an `entries` count of adds
used for rotation; membership is modelled exactly (the spec permits false
positives at rate 1e-5, which no claim depends on). -/
structure Bloom where
  hashes : List Nat
  entries : Nat

/-- Modelled from the spec: bloom membership query. -/
def bloomContains (b : Bloom) (h : Nat) : Bool :=
  b.hashes.contains h

/-- Modelled from the spec: bloom insert, counting adds. -/
def bloomAdd (b : Bloom) (h : Nat) : Bloom :=
  { hashes := h :: b.hashes, entries := b.entries + 1 }

/-- Modelled from the spec: bloom reset. -/
def bloomReset : Bloom := { hashes := [], entries := 0 }

/-- `ghostFreqRing`: 256 hash slots, 256 frequency slots, write cursor. -/
structure GhostFreqRing where
  hashes : List Nat
  freqs : List Nat
  pos : Nat

/-- A fresh ring: all 256 slots zero, cursor at 0. -/
def emptyRing : GhostFreqRing :=
  { hashes := List.replicate 256 0, freqs := List.replicate 256 0, pos := 0 }

/-- `ghostFreqRing.add`: write at the cursor, advance with wraparound
(the source wraps a `uint8`, i.e. modulo 256). -/
def ringAdd (r : GhostFreqRing) (h freq : Nat) : GhostFreqRing :=
  { hashes := r.hashes.set r.pos h, freqs := r.freqs.set r.pos freq
    pos := (r.pos + 1) % 256 }

/-- The index scan of `ghostFreqRing.lookup`: walk the hash slots in index
order next to the frequency slots, returning the first match. -/
def scanRing : List Nat → List Nat → Nat → Option Nat
  | h :: hs, f :: fs, x => if h = x then some f else scanRing hs fs x
  | _, _, _ => none

/-- `ghostFreqRing.lookup`: linear scan of the slots in index order. -/
def ringLookup (r : GhostFreqRing) (h : Nat) : Option Nat :=
  scanRing r.hashes r.freqs h

/-- `maxFreq` of the source. -/
def maxFreq : Nat := 7

/-- `deathRowSize` of the source. -/
def deathRowSize : Nat := 8

/-- The frequency bump shared by `get` and the update path of
`setWithHash`: increment `freq` below `maxFreq` and lift `peakFreq`. -/
def bumpFreq (e : GoEntry) : GoEntry :=
  if e.freq < maxFreq then
    let nf := e.freq + 1
    { e with freq := nf, peakFreq := if nf > e.peakFreq then nf else e.peakFreq }
  else e

/-- One shard, owning its entry pool. The lock, padding, and the `hasher`
and `parent` fields of the source are represented by explicit parameters
of the operations. -/
structure Shard where
  pool : Pool
  entries : List (Nat × Nat)
  small : EntryList
  main : EntryList
  ghostActive : Bloom
  ghostAging : Bloom
  ghostFreqRng : GhostFreqRing
  ghostCap : Nat
  deathRow : List (Option Nat)
  deathRowPos : Nat
  capacity : Nat
  smallThresh : Nat
  warmupComplete : Bool

/-- `xsync.Map.Load`: look a key up in the entries map. -/
def mapLoad (m : List (Nat × Nat)) (k : Nat) : Option Nat :=
  (m.find? (fun p => p.1 = k)).map (·.2)

/-- `xsync.Map.Store`: replace the binding if present, append otherwise. -/
def mapStore (m : List (Nat × Nat)) (k i : Nat) : List (Nat × Nat) :=
  if (m.find? (fun p => p.1 = k)).isSome then
    m.map (fun p => if p.1 = k then (k, i) else p)
  else m ++ [(k, i)]

/-- `xsync.Map.Delete`: drop the binding; absent keys are a no-op. -/
def mapDelete (m : List (Nat × Nat)) (k : Nat) : List (Nat × Nat) :=
  m.filter (fun p => ¬ p.1 = k)

/-- `xsync.Map.Size`. -/
def mapSize (m : List (Nat × Nat)) : Nat := m.length

/-- A fresh shard of the given per-shard capacity, as built by `newS3FIFO`
(small threshold 24.7 percent per-mille, ghost capacity = capacity). -/
def newShard (scap : Nat) : Shard :=
  { pool := [], entries := [], small := emptyList, main := emptyList
    ghostActive := bloomReset, ghostAging := bloomReset
    ghostFreqRng := emptyRing, ghostCap := scap
    deathRow := List.replicate deathRowSize none, deathRowPos := 0
    capacity := scap, smallThresh := scap * 247 / 1000
    warmupComplete := false }

/-- State threaded through one shard operation: the shard plus the
engine-level `totalEntries` counter and global capacity (the source reads
them through the shard's `parent` pointer). -/
structure SState where
  shard : Shard
  totalEntries : Int
  capacityG : Nat

/-- Results of operations that may loop: `panic` is a Go nil-pointer
dereference of a queue head, `nofuel` is exhaustion of the fuel that the
embedding gives to the source's unbounded loops. -/
inductive Res (α : Type) where
  | ok (a : α)
  | panic
  | nofuel

/-- `shard.addToGhost`. -/
def addToGhost (s : SState) (h peak : Nat) : SState :=
  let sh := s.shard
  let sh :=
    if bloomContains sh.ghostActive h then sh
    else
      let sh := { sh with ghostActive := bloomAdd sh.ghostActive h }
      if peak ≥ 2 then { sh with ghostFreqRng := ringAdd sh.ghostFreqRng h peak }
      else sh
  let sh :=
    if sh.ghostActive.entries ≥ sh.ghostCap then
      { sh with ghostActive := bloomReset, ghostAging := sh.ghostActive }
    else sh
  { s with shard := sh }

/-- `shard.sendToDeathRow`: evict the current slot's occupant for real if
present, then park the entry on death row and advance the cursor. -/
def sendToDeathRow (s : SState) (eid : Nat) : SState :=
  let pos := s.shard.deathRowPos
  let s :=
    match s.shard.deathRow.getD pos none with
    | some oldId =>
        let old := getE s.shard.pool oldId
        let s := { s with shard := { s.shard with entries := mapDelete s.shard.entries old.key } }
        let s := addToGhost s old.hash old.peakFreq
        { s with shard := { s.shard with
            pool := setE s.shard.pool oldId (fun e => { e with onDeathRow := false }) } }
    | none => s
  let sh := s.shard
  let sh := { sh with pool := setE sh.pool eid (fun e => { e with onDeathRow := true }) }
  let sh := { sh with deathRow := sh.deathRow.set pos (some eid)
                      deathRowPos := (pos + 1) % sh.deathRow.length }
  { s with shard := sh, totalEntries := s.totalEntries - 1 }

/-- `shard.evictFromMain`: evict the first cold head (demoting once-hot
entries back to small), second-chancing warm heads. -/
def evictFromMain : Nat → SState → Res SState
  | 0, _ => Res.nofuel
  | fuel + 1, s =>
    if s.shard.main.len > 0 then
      match s.shard.main.head with
      | none => Res.panic
      | some eid =>
        let f := (getE s.shard.pool eid).freq
        if f = 0 then
          let (p, m) := listRemove s.shard.pool s.shard.main eid
          let s := { s with shard := { s.shard with pool := p, main := m } }
          if (getE s.shard.pool eid).peakFreq ≥ 4 then
            let p := setE s.shard.pool eid (fun e => { e with freq := 1, inSmall := true })
            let (p, sm) := pushBack p s.shard.small eid
            Res.ok { s with shard := { s.shard with pool := p, small := sm } }
          else
            Res.ok (sendToDeathRow s eid)
        else
          let (p, m) := listRemove s.shard.pool s.shard.main eid
          let p := setE p eid (fun e => { e with freq := f - 1 })
          let (p, m) := pushBack p m eid
          evictFromMain fuel { s with shard := { s.shard with pool := p, main := m } }
    else Res.ok s

/-- `shard.evictFromSmall`: evict the first cold head, promoting warm heads
to main (recursing into main eviction when main overshoots 90 percent). -/
def evictFromSmall : Nat → SState → Res SState
  | 0, _ => Res.nofuel
  | fuel + 1, s =>
    let mcap := s.shard.capacity * 9 / 10
    if s.shard.small.len > 0 then
      match s.shard.small.head with
      | none => Res.panic
      | some eid =>
        let f := (getE s.shard.pool eid).freq
        if f < 2 then
          let (p, sm) := listRemove s.shard.pool s.shard.small eid
          Res.ok (sendToDeathRow { s with shard := { s.shard with pool := p, small := sm } } eid)
        else
          let (p, sm) := listRemove s.shard.pool s.shard.small eid
          let p := setE p eid (fun e => { e with freq := 0, inSmall := false })
          let (p, m) := pushBack p s.shard.main eid
          let s := { s with shard := { s.shard with pool := p, small := sm, main := m } }
          if s.shard.main.len > (mcap : Int) then
            match evictFromMain fuel s with
            | Res.ok s2 => evictFromSmall fuel s2
            | Res.panic => Res.panic
            | Res.nofuel => Res.nofuel
          else evictFromSmall fuel s
    else Res.ok s

/-- Entry creation in `setWithHash`: `&entry{key, value, expiryNano}` plus
the cached `hash` field assigned right after. -/
def mkEnt (k v hsh : Nat) (x : Int) : GoEntry :=
  { key := k, value := v, hash := hsh, expiryNano := x, freq := 0
    peakFreq := 0, inSmall := false, onDeathRow := false, prev := none, next := none }

/-- The ghost-membership admission decision of `setWithHash` on a full
engine: set the new entry's `inSmall` flag from the two bloom filters and,
on a ghost hit, restore its frequency from the ghost ring. -/
def ghostAdmit (h eid : Nat) (s : SState) : SState :=
  let inGhost := bloomContains s.shard.ghostActive h || bloomContains s.shard.ghostAging h
  let s := { s with shard := { s.shard with
    pool := setE s.shard.pool eid (fun e => { e with inSmall := ¬ inGhost }) } }
  if ¬ (getE s.shard.pool eid).inSmall then
    match ringLookup s.shard.ghostFreqRng h with
    | some pk => { s with shard := { s.shard with
        pool := setE s.shard.pool eid (fun e => { e with freq := pk, peakFreq := pk }) } }
    | none => s
  else s

/-- The eviction-round dispatch of `setWithHash` on a full engine: one
round of main eviction when main is nonempty and small is at or below its
threshold, else one round of small eviction when small is nonempty. -/
def admissionRound (fuel : Nat) (s : SState) : Res SState :=
  if s.shard.main.len > 0 ∧ s.shard.small.len ≤ (s.shard.smallThresh : Int) then
    evictFromMain fuel s
  else if s.shard.small.len > 0 then
    evictFromSmall fuel s
  else Res.ok s

/-- `shard.setWithHash`. An existing entry is updated in place; otherwise a
fresh entry is appended to the pool, the warmup/full/ghost admission logic
runs (with at most one eviction round, see `ghostAdmit` and
`admissionRound`), and the entry joins the chosen queue and the map.
`hash = 0` means compute from the hasher, as in the source. -/
def setWithHash (fuel : Nat) (hasher : Nat → Nat) (k v : Nat) (expiry : Int)
    (hash : Nat) (s : SState) : Res SState :=
  match mapLoad s.shard.entries k with
  | some eid =>
      Res.ok { s with shard := { s.shard with
        pool := setE s.shard.pool eid
          (fun e => bumpFreq { e with value := v, expiryNano := expiry }) } }
  | none =>
    let h := if hash = 0 then hasher k else hash
    let eid := s.shard.pool.length
    let ent : GoEntry := mkEnt k v h expiry
    let s := { s with shard := { s.shard with pool := s.shard.pool ++ [ent] } }
    let full := s.totalEntries ≥ (s.capacityG : Int)
    if ¬ s.shard.warmupComplete ∧ ¬ full then
      let sh := { s.shard with pool := setE s.shard.pool eid (fun e => { e with inSmall := true }) }
      let (p, sm) := pushBack sh.pool sh.small eid
      let sh := { sh with pool := p, small := sm, entries := mapStore sh.entries k eid }
      Res.ok { s with shard := sh, totalEntries := s.totalEntries + 1 }
    else
      let s := { s with shard := { s.shard with warmupComplete := true } }
      let roundRes :=
        if full then admissionRound fuel (ghostAdmit h eid s)
        else
          Res.ok { s with shard := { s.shard with
            pool := setE s.shard.pool eid (fun e => { e with inSmall := true }) } }
      match roundRes with
      | Res.panic => Res.panic
      | Res.nofuel => Res.nofuel
      | Res.ok s =>
        let sh := s.shard
        let (p, sh) :=
          if (getE sh.pool eid).inSmall then
            let (p, sm) := pushBack sh.pool sh.small eid
            (p, { sh with small := sm })
          else
            let (p, m) := pushBack sh.pool sh.main eid
            (p, { sh with main := m })
        let sh := { sh with pool := p, entries := mapStore sh.entries k eid }
        Res.ok { s with shard := sh, totalEntries := s.totalEntries + 1 }

/-- `shard.resurrectFromDeathRow`: clear the entry's death-row slot, boost
it to frequency 3 and re-enqueue it at the tail of main. In the source the
slot scan compares pointers; here it clears the first slot holding the
entry's id. -/
def clearFirstSlot : List (Option Nat) → Nat → List (Option Nat)
  | [], _ => []
  | slot :: rest, eid =>
      if slot = some eid then none :: rest
      else slot :: clearFirstSlot rest eid

/-- `shard.resurrectFromDeathRow` (see `clearFirstSlot` for the scan). -/
def resurrectFromDeathRow (k : Nat) (s : SState) : SState × Nat × Bool :=
  match mapLoad s.shard.entries k with
  | none => (s, 0, false)
  | some eid =>
    let e := getE s.shard.pool eid
    if ¬ e.onDeathRow then (s, 0, true)
    else
      let sh := { s.shard with deathRow := clearFirstSlot s.shard.deathRow eid }
      let p0 := setE sh.pool eid
        (fun x => { x with onDeathRow := false, inSmall := false, freq := 3, peakFreq := 3 })
      let sh := { sh with pool := p0 }
      let (p, m) := pushBack sh.pool sh.main eid
      let sh := { sh with pool := p, main := m }
      ({ s with shard := sh, totalEntries := s.totalEntries + 1 }, e.value, true)

/-- `shard.get` at the given current time: death-row entries are
resurrected, expired entries are a miss, hits bump the frequency. -/
def shardGet (k : Nat) (now : Int) (s : SState) : SState × Nat × Bool :=
  match mapLoad s.shard.entries k with
  | none => (s, 0, false)
  | some eid =>
    let e := getE s.shard.pool eid
    if e.onDeathRow then resurrectFromDeathRow k s
    else if e.expiryNano ≠ 0 ∧ now > e.expiryNano then (s, 0, false)
    else
      ({ s with shard := { s.shard with pool := setE s.shard.pool eid bumpFreq } }, e.value, true)

/-- `shard.delete`: remove the entry from the queue its `inSmall` flag
names (the source does this even for death-row entries, which are in
neither queue), drop it from the map, decrement the counter. -/
def shardDelete (k : Nat) (s : SState) : SState :=
  match mapLoad s.shard.entries k with
  | none => s
  | some eid =>
    let e := getE s.shard.pool eid
    let sh :=
      if e.inSmall then
        let (p, sm) := listRemove s.shard.pool s.shard.small eid
        { s.shard with pool := p, small := sm }
      else
        let (p, m) := listRemove s.shard.pool s.shard.main eid
        { s.shard with pool := p, main := m }
    { s with shard := { sh with entries := mapDelete sh.entries k },
             totalEntries := s.totalEntries - 1 }

/-- `shard.flush`: empty the map and queues, reset blooms, ring and death
row; returns the removed count. (`warmupComplete` is not reset.) -/
def shardFlush (s : Shard) : Shard × Nat :=
  ({ s with entries := [], small := emptyList, main := emptyList
            ghostActive := bloomReset, ghostAging := bloomReset
            ghostFreqRng := emptyRing
            deathRow := List.replicate deathRowSize none, deathRowPos := 0 },
    mapSize s.entries)

/-- The engine: shard array, global counter, configured capacity. -/
structure Engine where
  shards : List Shard
  totalEntries : Int
  capacity : Nat
  numShards : Nat

/-- A fresh engine (`newS3FIFO`) with the given capacity and shard count;
per-shard capacity is the rounded-up quotient. The source derives the
shard count from `GOMAXPROCS` and the size, always a power of two. -/
def newEngine (size n : Nat) : Engine :=
  { shards := List.replicate n (newShard ((size + n - 1) / n))
    totalEntries := 0, capacity := size, numShards := n }

/-- `shardIdx` for integer keys: the source masks with `numShards - 1`;
for the power-of-two shard counts `newS3FIFO` produces this equals the
remainder, which keeps the model total for every count. -/
def shardIdx (e : Engine) (k : Nat) : Nat :=
  k % e.numShards

/-- Dissolve a shard-level result back into the engine. -/
def putShard (e : Engine) (idx : Nat) (ss : SState) : Engine :=
  { e with shards := e.shards.set idx ss.shard, totalEntries := ss.totalEntries }

/-- View one shard of the engine as a shard-operation state. -/
def takeShard (e : Engine) (idx : Nat) : SState :=
  { shard := e.shards.getD idx (newShard 0), totalEntries := e.totalEntries
    capacityG := e.capacity }

/-- Engine `set` (integer-key path: routed by the raw key, hash computed
inside `setWithHash` from the hasher, as in the source). -/
def engineSet (fuel : Nat) (hasher : Nat → Nat) (k v : Nat) (expiry : Int)
    (e : Engine) : Res Engine :=
  let idx := shardIdx e k
  match setWithHash fuel hasher k v expiry 0 (takeShard e idx) with
  | Res.ok ss => Res.ok (putShard e idx ss)
  | Res.panic => Res.panic
  | Res.nofuel => Res.nofuel

/-- Engine `get` (the source's per-type fast paths inline exactly the
shard-level logic). -/
def engineGet (k : Nat) (now : Int) (e : Engine) : Engine × Nat × Bool :=
  let idx := shardIdx e k
  let (ss, v, ok) := shardGet k now (takeShard e idx)
  (putShard e idx ss, v, ok)

/-- Engine `del`. -/
def engineDelete (k : Nat) (e : Engine) : Engine :=
  let idx := shardIdx e k
  putShard e idx (shardDelete k (takeShard e idx))

/-- Engine `flush`: flush every shard and zero the counter. -/
def engineFlush (e : Engine) : Engine :=
  { e with shards := e.shards.map (fun s => (shardFlush s).1), totalEntries := 0 }

/-- Engine `len`: the summed map sizes of all shards. -/
def engineLen (e : Engine) : Nat :=
  (e.shards.map (fun s => mapSize s.entries)).sum

/-- A loader passed to `fetch`: it returns a value and an optional error,
or aborts by panicking. Errors are opaque and modelled as numbers. -/
inductive Loader where
  | ret (v : Nat) (err : Option Nat)
  | panics

/-- The memory effects of a leader `fetch` (`Cache.getSet` of the source,
restricted to the engine): read-through, re-check, then run the loader and
cache only successful results (with the default zero TTL). -/
def engineFetch (fuel : Nat) (hasher : Nat → Nat) (k : Nat) (loader : Loader)
    (e : Engine) : Res Engine :=
  let (e, _, found) := engineGet k 0 e
  if found then Res.ok e
  else
    let (e, _, found2) := engineGet k 0 e
    if found2 then Res.ok e
    else
      match loader with
      | Loader.panics => Res.panic
      | Loader.ret v err =>
          match err with
          | some _ => Res.ok e
          | none => engineSet fuel hasher k v 0 e

/-- The operations of the public engine interface. -/
inductive Op where
  | set (k v : Nat)
  | get (k : Nat) (now : Int)
  | del (k : Nat)
  | fetch (k : Nat) (loader : Loader)
  | flush

/-- Run one operation. -/
def runOp (fuel : Nat) (hasher : Nat → Nat) (op : Op) (e : Engine) : Res Engine :=
  match op with
  | Op.set k v => engineSet fuel hasher k v 0 e
  | Op.get k now => Res.ok (engineGet k now e).1
  | Op.del k => Res.ok (engineDelete k e)
  | Op.fetch k loader => engineFetch fuel hasher k loader e
  | Op.flush => Res.ok (engineFlush e)

/-- Run a sequence of operations; a panic or fuel exhaustion stops the
run. -/
def runOps (fuel : Nat) (hasher : Nat → Nat) : List Op → Engine → Res Engine
  | [], e => Res.ok e
  | op :: ops, e =>
    match runOp fuel hasher op e with
    | Res.ok e' => runOps fuel hasher ops e'
    | Res.panic => Res.panic
    | Res.nofuel => Res.nofuel

/-! The singleflight layer (`Cache.getSet` of the source). A flight record
holds the published value/error and whether its completion latch was
signalled (`wg.Done`). The follower path reads the record the leader
published; in this sequential model an incomplete record would block. -/

/-- A singleflight record (`flightCall`): published value, published
error, and whether the latch has been signalled. -/
structure FlightRec where
  val : Nat
  err : Option Nat
  done : Bool
deriving DecidableEq

/-- The cache: a memory engine plus the singleflight map. -/
structure FCache where
  mem : Engine
  flights : List (Nat × FlightRec)

/-- Look up a flight record. -/
def flightLookup (fl : List (Nat × FlightRec)) (k : Nat) : Option FlightRec :=
  (fl.find? (fun p => p.1 = k)).map (·.2)

/-- Remove a flight record. -/
def flightDelete (fl : List (Nat × FlightRec)) (k : Nat) : List (Nat × FlightRec) :=
  fl.filter (fun p => ¬ p.1 = k)

/-- Outcome of a `getSet` call. `panicked` records the state at the moment
a panicking loader unwinds through the leader (no cleanup has run);
`waiterView` on `ok` is the record as any follower of the same flight
reads it after completion (`none` when the call never created a record). -/
inductive FetchOut where
  | ok (c : FCache) (v : Nat) (err : Option Nat) (waiterView : Option FlightRec)
  | panicked (c : FCache)
  | blocked
  | enginePanic
  | nofuel

/-- `Cache.getSet` with the default zero TTL: read-through, create the
flight record, re-check the cache, run the loader, cache successes only,
publish, remove the record, signal the latch. A panicking loader aborts
between the loader call and the cleanup statements. -/
def getSet (fuel : Nat) (hasher : Nat → Nat) (k : Nat) (loader : Loader)
    (c : FCache) : FetchOut :=
  let (mem, v, found) := engineGet k 0 c.mem
  let c := { c with mem := mem }
  if found then FetchOut.ok c v none none
  else
    match flightLookup c.flights k with
    | some fc =>
        if fc.done then FetchOut.ok c fc.val fc.err (some fc) else FetchOut.blocked
    | none =>
      let fc0 : FlightRec := { val := 0, err := none, done := false }
      let c := { c with flights := c.flights ++ [(k, fc0)] }
      let (mem, v2, found2) := engineGet k 0 c.mem
      let c := { c with mem := mem }
      if found2 then
        FetchOut.ok { c with flights := flightDelete c.flights k } v2 none
          (some { val := v2, err := none, done := true })
      else
        match loader with
        | Loader.panics => FetchOut.panicked c
        | Loader.ret lv lerr =>
          let memRes :=
            match lerr with
            | some _ => Res.ok c.mem
            | none => engineSet fuel hasher k lv 0 c.mem
          match memRes with
          | Res.panic => FetchOut.enginePanic
          | Res.nofuel => FetchOut.nofuel
          | Res.ok m =>
            FetchOut.ok { mem := m, flights := flightDelete c.flights k } lv lerr
              (some { val := lv, err := lerr, done := true })

/-! Concrete traces used by the counterexamples. The hasher stands in for
`hashInt64` (absent from the sources); only injectivity and nonzero
outputs matter on these runs. -/

/-- Concrete stand-in hasher for integer keys. -/
def hsh : Nat → Nat := fun k => k + 1

/-- A block of sets of distinct keys (value = key). -/
def opsSets (lo hi : Nat) : List Op :=
  (List.range' lo (hi + 1 - lo)).map (fun k => Op.set k k)

/-- A block of repeated gets of a key range. -/
def opsGets (lo hi times : Nat) : List Op :=
  (List.range' lo (hi + 1 - lo)).flatMap (fun k => List.replicate times (Op.get k 0))

/-- Number of occupied death-row slots. -/
def occCount (dr : List (Option Nat)) : Nat := (dr.filterMap id).length

/-- Observe the length of a run's final engine. -/
def resLen : Res Engine → Option Nat
  | Res.ok e => some (engineLen e)
  | _ => none

/-- Shard 0 of a run's final engine. -/
def resShard0 : Res Engine → Option Shard
  | Res.ok e => some (e.shards.getD 0 (newShard 0))
  | _ => none

/-- C1 trace: capacity 8, one shard; fill during warmup, heat the first
eight keys to peak frequency 4, then nine more distinct sets. -/
def c1ops : List Op := opsSets 1 8 ++ opsGets 1 8 4 ++ opsSets 9 17

/-- C1 trace run. -/
def c1run : Res Engine := runOps 1000 hsh c1ops (newEngine 8 1)

/-- C1 amended witness run: one set into a fresh two-entry engine (total
by construction: the fallback arm is never reached on this input). -/
def c1wE : Engine :=
  match runOps 8 hsh [Op.set 1 1] (newEngine 2 1) with
  | Res.ok x => x
  | _ => newEngine 2 1

/-- C5 trace: nine sets into capacity 8 push key 1 onto death row straight
from the small queue. -/
def c5run : Res Engine := runOps 1000 hsh (opsSets 1 9) (newEngine 8 1)

/-- Flags of key 1's entry after the C5 trace. -/
def c5obs : Option (Bool × Bool) :=
  match resShard0 c5run with
  | some sh =>
    match mapLoad sh.entries 1 with
    | some i => some ((getE sh.pool i).onDeathRow, (getE sh.pool i).inSmall)
    | none => none
  | none => none

/-- C2 trace: after the C1 trace, one more set truly evicts key 1 into the
ghost, and two deletes bring the engine below capacity before key 1 is set
again. -/
def c2pre : List Op := c1ops ++ [Op.set 18 18, Op.del 16, Op.del 17]

/-- State just before the final C2 set. -/
def c2preRun : Res Engine := runOps 1000 hsh c2pre (newEngine 8 1)

/-- State after the final C2 set of the (absent, ghost-hit) key 1. -/
def c2run : Res Engine := runOps 1000 hsh (c2pre ++ [Op.set 1 101]) (newEngine 8 1)

/-- C2 observation: (key 1 absent before the set, engine below capacity
before the set, key 1's hash in the active ghost bloom before the set,
key 1 admitted with `inSmall`, key 1 at the small queue's tail). -/
def c2obs : Option (Bool × Bool × Bool × Bool × Bool) :=
  match resShard0 c2preRun, c2run with
  | some shp, Res.ok e =>
    let sh := e.shards.getD 0 (newShard 0)
    match mapLoad sh.entries 1 with
    | some i =>
        some ((mapLoad shp.entries 1).isNone,
          decide (e.totalEntries - 1 < (8 : Int)),
          bloomContains shp.ghostActive (hsh 1),
          (getE sh.pool i).inSmall,
          decide (sh.small.tail = some i))
    | none => none
  | _, _ => none

/-- C6 trace: reach a state with key 1 on death row (evicted from main),
delete it there (the source then removes it from a queue it is not in),
and keep operating until the death-row cursor returns to the stale slot. -/
def c6ops : List Op :=
  opsSets 1 16 ++ opsGets 1 16 2 ++
  [Op.set 17 17, Op.del 1, Op.del 4, Op.del 5, Op.del 6, Op.del 7] ++
  opsSets 19 31

/-- C6 trace run (capacity 16, one shard). -/
def c6run : Res Engine := runOps 1000 hsh c6ops (newEngine 16 1)

/-- C6 observation: stored small length, stored main length, occupied
death-row slots, map size. -/
def c6obs : Option (Int × Int × Nat × Nat) :=
  match resShard0 c6run with
  | some sh => some (sh.small.len, sh.main.len, occCount sh.deathRow, mapSize sh.entries)
  | none => none

/-- C9 trace prefix: corrupt the main queue by deleting a death-row key,
then refill to capacity. -/
def c9pre : List Op :=
  opsSets 1 16 ++ opsGets 1 16 2 ++ [Op.set 17 17, Op.del 1, Op.set 18 18, Op.set 19 19]

/-- State before the crashing C9 set. -/
def c9preRun : Res Engine := runOps 1000 hsh c9pre (newEngine 16 1)

/-- C9 observation: the next set dereferences the nil main head. -/
def c9obs : Bool :=
  match c9preRun with
  | Res.ok e =>
    match engineSet 1000 hsh 20 20 0 e with
    | Res.panic => true
    | _ => false
  | _ => false

/-- C10 trace: key 1 on death row, then seven overwrites drive its
frequency to the cap. -/
def c10pre : List Op := opsSets 1 9 ++ List.replicate 7 (Op.set 1 50)

/-- Run up to the cap. -/
def c10run : Res Engine := runOps 1000 hsh c10pre (newEngine 8 1)

/-- Run with one further overwrite of the capped death-row entry. -/
def c10run2 : Res Engine := runOps 1000 hsh (c10pre ++ [Op.set 1 60]) (newEngine 8 1)

/-- C10 observation: (on death row at the cap, frequency before the final
set, frequency after the final set). -/
def c10obs : Option (Bool × Nat × Nat) :=
  match resShard0 c10run, resShard0 c10run2 with
  | some sh, some sh2 =>
    match mapLoad sh.entries 1, mapLoad sh2.entries 1 with
    | some i, some j =>
        some ((getE sh.pool i).onDeathRow, (getE sh.pool i).freq, (getE sh2.pool j).freq)
    | _, _ => none
  | _, _ => none

/-- C7 counterexample ring: two adds for the same hash, frequencies 2 then
6 (the second is the most recent). -/
def c7ring : GhostFreqRing := ringAdd (ringAdd emptyRing 5 2) 5 6

/-- C3 input: a fresh cache. -/
def c3cache : FCache := { mem := newEngine 4 1, flights := [] }

/-- C3 observation: the flight record left behind by a leader whose loader
panicked. -/
def c3obs : Option FlightRec :=
  match getSet 100 hsh 1 Loader.panics c3cache with
  | FetchOut.panicked c => flightLookup c.flights 1
  | _ => none

/-- All `prev`/`next` links of a pool point below `n`. -/
def PLinks (p : Pool) (n : Nat) : Prop :=
  ∀ j, (∀ i, (getE p j).prev = some i → i < n)
    ∧ (∀ i, (getE p j).next = some i → i < n)

/-- Head and tail of a list value point below `n`. -/
def LLinks (l : EntryList) (n : Nat) : Prop :=
  (∀ i, l.head = some i → i < n) ∧ (∀ i, l.tail = some i → i < n)

/-- All occupied death-row slots point below `n`. -/
def DLinks (dr : List (Option Nat)) (n : Nat) : Prop :=
  ∀ sl ∈ dr, ∀ i, sl = some i → i < n

/-- Every id the queue machinery of a shard can reach (queue heads and
tails, intrusive links, death-row slots) lies below `n`; the eviction
round then never touches a pool slot at or above `n`. -/
def LinksBelow (sh : Shard) (n : Nat) : Prop :=
  PLinks sh.pool n ∧ LLinks sh.small n ∧ LLinks sh.main n ∧ DLinks sh.deathRow n

/-- C2 amended witness input: a fresh shard with zero global capacity (the
engine is at capacity from the start, so the set takes the ghost-checked
admission path). -/
def c2wS : SState := { shard := newShard 0, totalEntries := 0, capacityG := 0 }

/-- The state the witness set produces (total by construction: the
fallback arm is never reached on this input). -/
def c2wS2 : SState :=
  match setWithHash 8 hsh 1 5 0 0 c2wS with
  | Res.ok x => x
  | _ => c2wS

/-- C8 witness input: one pooled entry (freq 0, peak 4) alone at the head
of main. -/
def c8wS : SState :=
  { shard := { newShard 4 with
      pool := [{ mkEnt 1 1 2 0 with peakFreq := 4 }]
      entries := [(1, 0)]
      main := { head := some 0, tail := some 0, len := 1 } }
    totalEntries := 1, capacityG := 4 }

/-- C10 witness input: one pooled entry parked on death row, slot 0. -/
def c10wS : SState :=
  { shard := { newShard 4 with
      pool := [{ mkEnt 1 1 2 0 with onDeathRow := true }]
      entries := [(1, 0)]
      deathRow := (List.replicate deathRowSize (none : Option Nat)).set 0 (some 0) }
    totalEntries := 0, capacityG := 4 }

/-- C5 amended witness input: one pooled entry (freq 0, `inSmall` set)
alone at the head of the small queue. -/
def c5wS : SState :=
  { shard := { newShard 4 with
      pool := [{ mkEnt 1 1 2 0 with inSmall := true }]
      entries := [(1, 0)]
      small := { head := some 0, tail := some 0, len := 1 } }
    totalEntries := 1, capacityG := 4 }

/-- Writes in an op sequence: `set` and `fetch` (a fetch stores at most
one loaded value). -/
def countWrites : List Op → Nat
  | [] => 0
  | Op.set _ _ :: ops => countWrites ops + 1
  | Op.fetch _ _ :: ops => countWrites ops + 1
  | _ :: ops => countWrites ops

/-! Well-formedness of a shard: representation of the two intrusive lists,
flag/queue agreement, and exact coverage of the entries map by the two
queues and the death row. -/

/-- Adjacency in the intrusive list: `b` follows `a`. -/
def NextOf (p : Pool) (a b : Nat) : Prop :=
  (getE p a).next = some b ∧ (getE p b).prev = some a

/-- A list value faithfully represents the id sequence `xs`: head and
tail point at the ends of `xs`, the stored length agrees, consecutive
ids are doubly linked, and the end links are `none`. -/
def ListRepr (p : Pool) (l : EntryList) (xs : List Nat) : Prop :=
  l.head = xs.head? ∧ l.tail = xs.getLast? ∧ l.len = (xs.length : Int)
  ∧ List.Chain' (NextOf p) xs
  ∧ (∀ a, xs.head? = some a → (getE p a).prev = none)
  ∧ (∀ a, xs.getLast? = some a → (getE p a).next = none)

/-- Ids held by death-row slots, in slot order. -/
def slotIds (dr : List (Option Nat)) : List Nat := dr.filterMap id

/-- The shard invariant, relative to representation witnesses `xs` (small
queue ids) and `ys` (main queue ids). -/
structure SInv (sh : Shard) (xs ys : List Nat) : Prop where
  reprS : ListRepr sh.pool sh.small xs
  reprM : ListRepr sh.pool sh.main ys
  flagS : ∀ i ∈ xs, (getE sh.pool i).inSmall = true ∧ (getE sh.pool i).onDeathRow = false
  flagM : ∀ i ∈ ys, (getE sh.pool i).inSmall = false ∧ (getE sh.pool i).onDeathRow = false
  flagD : ∀ i ∈ slotIds sh.deathRow, (getE sh.pool i).onDeathRow = true
      ∧ (getE sh.pool i).prev = none ∧ (getE sh.pool i).next = none
  nodupAll : (xs ++ ys ++ slotIds sh.deathRow).Nodup
  cover : ∀ i, i ∈ sh.entries.map Prod.snd ↔ i ∈ xs ++ ys ++ slotIds sh.deathRow
  keysN : (sh.entries.map Prod.fst).Nodup
  idsN : (sh.entries.map Prod.snd).Nodup
  keyOK : ∀ pr ∈ sh.entries, (getE sh.pool pr.2).key = pr.1
  idsLt : ∀ i ∈ xs ++ ys ++ slotIds sh.deathRow, i < sh.pool.length

/-- A well-formed shard. -/
def ShardWF (sh : Shard) : Prop := ∃ xs ys, SInv sh xs ys

/-- A well-formed engine: every shard is well-formed. -/
def EngineWF (e : Engine) : Prop := ∀ sh ∈ e.shards, ShardWF sh

/-- The shard an engine routes a key to. -/
def routedShard (e : Engine) (k : Nat) : Shard :=
  e.shards.getD (shardIdx e k) (newShard 0)

/-- Two pools agree on the fields the eviction machinery never writes:
key, value, hash and expiry. Queue surgery and flag/frequency updates
relate pools this way. -/
def SameMeta (p q : Pool) : Prop :=
  ∀ j, (getE q j).key = (getE p j).key ∧ (getE q j).value = (getE p j).value
    ∧ (getE q j).hash = (getE p j).hash ∧ (getE q j).expiryNano = (getE p j).expiryNano

/-- Two pools agree on every field except the intrusive links: list surgery
(`pushBack`, `remove`) relates pools this way. -/
def SameNonLink (p q : Pool) : Prop :=
  ∀ j, (getE q j).key = (getE p j).key ∧ (getE q j).value = (getE p j).value
    ∧ (getE q j).hash = (getE p j).hash ∧ (getE q j).expiryNano = (getE p j).expiryNano
    ∧ (getE q j).freq = (getE p j).freq ∧ (getE q j).peakFreq = (getE p j).peakFreq
    ∧ (getE q j).inSmall = (getE p j).inSmall ∧ (getE q j).onDeathRow = (getE p j).onDeathRow

/-- Engine states reachable from a fresh engine by sequences of `set`,
`get`, `delete`, `fetch` and `flush` in which `delete` is never applied to
a key whose entry is on death row (any fuel, any loader, any clock). -/
inductive ReachC (hasher : Nat → Nat) : Engine → Prop where
  | init (size n : Nat) : ReachC hasher (newEngine size n)
  | set {e e' : Engine} {k v : Nat} {x : Int} (fuel : Nat) :
      ReachC hasher e → engineSet fuel hasher k v x e = Res.ok e' → ReachC hasher e'
  | get {e : Engine} {k : Nat} {now : Int} :
      ReachC hasher e → ReachC hasher (engineGet k now e).1
  | del {e : Engine} {k : Nat} :
      ReachC hasher e →
      (∀ i, mapLoad (routedShard e k).entries k = some i →
        (getE (routedShard e k).pool i).onDeathRow = false) →
      ReachC hasher (engineDelete k e)
  | fetch {e e' : Engine} {k : Nat} {loader : Loader} (fuel : Nat) :
      ReachC hasher e → engineFetch fuel hasher k loader e = Res.ok e' → ReachC hasher e'
  | flush {e : Engine} : ReachC hasher e → ReachC hasher (engineFlush e)

/-- C9 amended witness input: a fresh engine of capacity 4, one shard. -/
def c9wE : Engine := newEngine 4 1

/-- The engine the witness `set(5, 7)` produces (total by construction:
the fallback arms are never reached on this input). -/
def c9wE2 : Engine :=
  match engineSet 64 hsh 5 7 0 c9wE with
  | Res.ok x => x
  | _ => c9wE

end Multicache

set_option maxRecDepth 400000

namespace Multicache

/-- C1 counterexample: from a fresh engine of capacity 8 with one shard,
the trace `c1ops` (eight warmup sets, four gets of each of the first eight
keys, nine more distinct sets) ends with `len() = 17`, strictly above
`capacity + shard_count × death_row_size = 8 + 1 × 8 = 16`. The final set
of the trace runs an eviction round that ends in a hot-item demotion (head
of main with freq 0 and peak 4), which admits a new entry without sending
anything to the death row, while all eight death-row slots are occupied. -/
theorem c1_counterexample : resLen c1run = some 17 ∧ 8 + 1 * 8 < 17 := by
  constructor
  · decide
  · decide

/-- C2 counterexample: after `c2pre` (which truly evicts key 1, recording
its hash in the active ghost bloom, and then deletes two keys so the
engine drops below capacity), setting the absent key 1 on the warm shard
admits it to the tail of the *small* queue even though its hash is in a
bloom filter: the source consults the ghost filters only when the engine
is at capacity. The observation records: key 1 absent before the set, the
engine below capacity before the set, the ghost hit, and the admission to
small (the claim requires main). -/
theorem c2_counterexample : c2obs = some (true, true, true, true, true) := by decide

/-- C5 counterexample: after nine sets into a capacity-8 single-shard
engine, key 1's entry is on death row (evicted from the small queue) with
`on_death_row` set *and* `in_small` still set: the small-to-death-row
transition does not clear `in_small`, so the entry is in none of the three
flag states the claim lists. -/
theorem c5_counterexample : c5obs = some (true, true) := by decide

/-- C6 evaluation at the failing input: after `c6ops` (which deletes key 1
while it sits on death row — the source then removes it from the main
queue it is not in and leaves the stale slot — and continues until the
death-row cursor wraps back to that slot, whose occupant is no longer in
the map so the slot eviction deletes nothing), the shard ends with
`small.len + main.len + occupied = 7 + 9 + 8 = 24` but 25 map entries. -/
theorem c6_code_bug_eval : c6obs = some (7, 9, 8, 25) ∧ (7 : Int) + 9 + 8 ≠ 25 := by
  constructor
  · decide
  · decide

/-- C7 counterexample: adding hash 5 with frequency 2 and then again with
frequency 6 (the most recent add) leaves both in distinct slots;
`lookup(5)` scans in index order and returns 2, the *first* matching
slot, not the most recently added frequency 6. -/
theorem c7_counterexample : ringLookup c7ring 5 = some 2 ∧ (2 : Nat) ≠ 6 := by
  constructor
  · decide
  · decide

/-- C9 counterexample: after `c9pre` (key 1 deleted while on death row,
which nils the main queue's head while its stored length stays positive,
then two refilling sets), the next `set` of a fresh key triggers main
eviction and dereferences the nil head — the set panics, so no subsequent
`get` can return the written value. -/
theorem c9_counterexample : c9obs = true := by decide

/-- C10 counterexample: key 1 sits on death row and seven overwrites have
driven its frequency to `maxFreq = 7`; the next `set(1, 60)` leaves the
frequency at 7 — it is not bumped, because the source only increments
below `maxFreq`. -/
theorem c10_counterexample : c10obs = some (true, 7, 7) ∧ (7 : Nat) ≠ 7 + 1 := by
  constructor
  · decide
  · decide

/-! Helper lemmas. -/

theorem list_set_getD {α : Type} (l : List α) (i : Nat) (d : α) :
    l.set i (l.getD i d) = l := by
  induction l generalizing i with
  | nil => rfl
  | cons a l ih =>
    cases i with
    | zero => rfl
    | succ j => simpa [List.getD] using ih j

theorem putShard_takeShard (e : Engine) (idx : Nat) :
    putShard e idx (takeShard e idx) = e := by
  show ({ shards := e.shards.set idx (e.shards.getD idx (newShard 0)),
          totalEntries := e.totalEntries, capacity := e.capacity,
          numShards := e.numShards } : Engine) = e
  rw [list_set_getD]

theorem shardGet_miss (k : Nat) (now : Int) (s : SState)
    (h : (shardGet k now s).2.2 = false) : shardGet k now s = (s, 0, false) := by
  unfold shardGet at h ⊢
  cases hl : mapLoad s.shard.entries k with
  | none => rfl
  | some eid =>
    rw [hl] at h
    dsimp only at h ⊢
    by_cases hdr : (getE s.shard.pool eid).onDeathRow = true
    · rw [if_pos hdr] at h ⊢
      unfold resurrectFromDeathRow at h ⊢
      cases hl2 : mapLoad s.shard.entries k with
      | none => rfl
      | some eid2 =>
        rw [hl2] at h
        dsimp only at h ⊢
        by_cases hdr2 : (getE s.shard.pool eid2).onDeathRow = true
        · simp only [hdr2, not_true, if_neg, ite_false] at h
          simp at h
        · simp only [hdr2, not_false_iff, if_pos, ite_true] at h
          simp at h
    · rw [if_neg hdr] at h ⊢
      by_cases hex : (getE s.shard.pool eid).expiryNano ≠ 0 ∧ now > (getE s.shard.pool eid).expiryNano
      · rw [if_pos hex]
      · rw [if_neg hex] at h
        simp at h

theorem engineGet_miss (k : Nat) (now : Int) (e : Engine)
    (h : (engineGet k now e).2.2 = false) : engineGet k now e = (e, 0, false) := by
  have hm : (shardGet k now (takeShard e (shardIdx e k))).2.2 = false := h
  calc engineGet k now e
      = (putShard e (shardIdx e k) (shardGet k now (takeShard e (shardIdx e k))).1,
          (shardGet k now (takeShard e (shardIdx e k))).2.1,
          (shardGet k now (takeShard e (shardIdx e k))).2.2) := rfl
    _ = (e, 0, false) := by rw [shardGet_miss k now _ hm, putShard_takeShard]

theorem flightLookup_delete (fl : List (Nat × FlightRec)) (k : Nat) :
    flightLookup (flightDelete fl k) k = none := by
  unfold flightLookup flightDelete
  induction fl with
  | nil => rfl
  | cons p fl _ih =>
    by_cases hk : p.1 = k
    · simp [List.filter, hk]
    · simp [List.filter, hk, List.find?]

/-- C4: a flight whose loader returns an error `ec` hands exactly `ec` to
the leader and publishes exactly `ec` (with the latch signalled) on the
record every follower reads; the record is removed from the flights map,
the memory engine is untouched by the flight, and a subsequent get of the
key still misses. -/
theorem c4_loader_error (fuel : Nat) (hasher : Nat → Nat) (k v ec : Nat) (c : FCache)
    (hmiss : (engineGet k 0 c.mem).2.2 = false)
    (hnone : flightLookup c.flights k = none) :
    ∃ c', getSet fuel hasher k (Loader.ret v (some ec)) c
        = FetchOut.ok c' v (some ec) (some { val := v, err := some ec, done := true })
      ∧ c'.mem = c.mem
      ∧ flightLookup c'.flights k = none
      ∧ (engineGet k 0 c'.mem).2.2 = false := by
  have hget := engineGet_miss k 0 c.mem hmiss
  refine ⟨{ mem := c.mem
            flights := flightDelete
              (c.flights ++ [(k, { val := 0, err := none, done := false })]) k }, ?_, rfl, ?_, ?_⟩
  · unfold getSet
    simp only [hget, hnone]
    simp
  · exact flightLookup_delete _ k
  · exact hmiss

/-- C4 witness: the theorem applied to a fresh cache, key 1, loader error
code 3. -/
theorem c4_loader_error_witness :
    ∃ c', getSet 10 hsh 1 (Loader.ret 5 (some 3)) { mem := newEngine 4 1, flights := [] }
        = FetchOut.ok c' 5 (some 3) (some { val := 5, err := some 3, done := true })
      ∧ c'.mem = newEngine 4 1
      ∧ flightLookup c'.flights 1 = none
      ∧ (engineGet 1 0 c'.mem).2.2 = false :=
  c4_loader_error 10 hsh 1 5 3 { mem := newEngine 4 1, flights := [] } (by decide) (by decide)

/-- C3 evaluation at the failing input: a `fetch` leader on a fresh cache
whose loader panics aborts before any cleanup: its singleflight record is
still in the flights map with `done = false` — the record was neither
removed nor its latch signalled, because `getSet` registers no deferred
cleanup. -/
theorem c3_code_bug_eval : c3obs = some { val := 0, err := none, done := false } := by decide

/-! Pool access lemmas. -/

theorem getE_setE (p : Pool) (i : Nat) (f : GoEntry → GoEntry) (j : Nat) :
    getE (setE p i f) j = if j = i ∧ j < p.length then f (getE p j) else getE p j := by
  unfold getE setE
  by_cases hj : j = i ∧ j < p.length
  · obtain ⟨rfl, hlt⟩ := hj
    rw [if_pos ⟨rfl, hlt⟩, List.getD_eq_getElem _ _ (by simpa using hlt),
      List.getElem_set_self (by simpa using hlt)]
    rfl
  · rw [if_neg hj]
    by_cases hji : j = i
    · subst hji
      have hge : p.length ≤ j := by
        rcases Nat.lt_or_ge j p.length with h1 | h1
        · exact absurd ⟨rfl, h1⟩ hj
        · exact h1
      rw [List.set_eq_of_length_le hge]
    · by_cases hlt : j < p.length
      · rw [List.getD_eq_getElem _ _ (by simpa using hlt),
          List.getElem_set_ne (Ne.symm hji) (by simpa using hlt), List.getD_eq_getElem _ _ hlt]
      · rw [List.getD_eq_default _ _ (by simpa using Nat.le_of_not_lt hlt),
          List.getD_eq_default _ _ (Nat.le_of_not_lt hlt)]

theorem setE_length (p : Pool) (i : Nat) (f : GoEntry → GoEntry) :
    (setE p i f).length = p.length := by
  simp [setE]

theorem pushBack_tail (p : Pool) (l : EntryList) (i : Nat) :
    ((pushBack p l i).2).tail = some i := by
  unfold pushBack
  cases l.tail <;> rfl

theorem pushBack_pool_len (p : Pool) (l : EntryList) (i : Nat) :
    ((pushBack p l i).1).length = p.length := by
  unfold pushBack
  cases l.tail <;> simp [setE_length]

theorem bumpFreq_meta (e : GoEntry) :
    (bumpFreq e).key = e.key ∧ (bumpFreq e).value = e.value
    ∧ (bumpFreq e).hash = e.hash ∧ (bumpFreq e).expiryNano = e.expiryNano
    ∧ (bumpFreq e).inSmall = e.inSmall ∧ (bumpFreq e).onDeathRow = e.onDeathRow
    ∧ (bumpFreq e).prev = e.prev ∧ (bumpFreq e).next = e.next := by
  unfold bumpFreq
  by_cases h : e.freq < maxFreq <;> simp [h]

theorem bumpFreq_freq (e : GoEntry) :
    (bumpFreq e).freq = if e.freq < maxFreq then e.freq + 1 else e.freq := by
  unfold bumpFreq
  by_cases h : e.freq < maxFreq <;> simp [h]

theorem sameNonLink_refl (p : Pool) : SameNonLink p p := fun _ =>
  ⟨rfl, rfl, rfl, rfl, rfl, rfl, rfl, rfl⟩

theorem sameNonLink_trans {p q r : Pool} (h1 : SameNonLink p q) (h2 : SameNonLink q r) :
    SameNonLink p r := by
  intro j
  obtain ⟨a1, b1, c1, d1, e1, f1, g1, i1⟩ := h1 j
  obtain ⟨a2, b2, c2, d2, e2, f2, g2, i2⟩ := h2 j
  exact ⟨a2.trans a1, b2.trans b1, c2.trans c1, d2.trans d1,
    e2.trans e1, f2.trans f1, g2.trans g1, i2.trans i1⟩

theorem sameNonLink_setE_links (p : Pool) (i : Nat) (f : GoEntry → GoEntry)
    (hf : ∀ e, (f e).key = e.key ∧ (f e).value = e.value ∧ (f e).hash = e.hash
      ∧ (f e).expiryNano = e.expiryNano ∧ (f e).freq = e.freq ∧ (f e).peakFreq = e.peakFreq
      ∧ (f e).inSmall = e.inSmall ∧ (f e).onDeathRow = e.onDeathRow) :
    SameNonLink p (setE p i f) := by
  intro j
  rw [getE_setE]
  by_cases hj : j = i ∧ j < p.length
  · rw [if_pos hj]
    exact hf (getE p j)
  · rw [if_neg hj]
    exact ⟨rfl, rfl, rfl, rfl, rfl, rfl, rfl, rfl⟩

theorem sameNonLink_setE_pn (q : Pool) (j : Nat) (a b : Option Nat) :
    SameNonLink q (setE q j (fun x => { x with prev := a, next := b })) :=
  sameNonLink_setE_links q j _ (fun _ => ⟨rfl, rfl, rfl, rfl, rfl, rfl, rfl, rfl⟩)

theorem sameNonLink_setE_p (q : Pool) (j : Nat) (a : Option Nat) :
    SameNonLink q (setE q j (fun x => { x with prev := a })) :=
  sameNonLink_setE_links q j _ (fun _ => ⟨rfl, rfl, rfl, rfl, rfl, rfl, rfl, rfl⟩)

theorem sameNonLink_setE_n (q : Pool) (j : Nat) (a : Option Nat) :
    SameNonLink q (setE q j (fun x => { x with next := a })) :=
  sameNonLink_setE_links q j _ (fun _ => ⟨rfl, rfl, rfl, rfl, rfl, rfl, rfl, rfl⟩)

theorem sameNonLink_pushBack (p : Pool) (l : EntryList) (i : Nat) :
    SameNonLink p (pushBack p l i).1 := by
  unfold pushBack
  dsimp only
  cases htl : l.tail with
  | none =>
    exact sameNonLink_setE_pn p i none none
  | some t =>
    exact sameNonLink_trans (sameNonLink_setE_pn p i (some t) none)
      (sameNonLink_setE_n _ t (some i))

theorem sameNonLink_listRemove (p : Pool) (l : EntryList) (i : Nat) :
    SameNonLink p (listRemove p l i).1 := by
  unfold listRemove
  dsimp only
  cases hp : (getE p i).prev with
  | none =>
    cases hn : (getE p i).next with
    | none =>
      exact sameNonLink_setE_pn p i none none
    | some nx =>
      exact sameNonLink_trans (sameNonLink_setE_p p nx (getE p i).prev)
        (sameNonLink_setE_pn _ i none none)
  | some pr =>
    cases hn : (getE (setE p pr (fun x => { x with next := (getE p i).next })) i).next with
    | none =>
      exact sameNonLink_trans (sameNonLink_setE_n p pr (getE p i).next)
        (sameNonLink_setE_pn _ i none none)
    | some nx =>
      refine sameNonLink_trans (sameNonLink_setE_n p pr (getE p i).next) ?_
      exact sameNonLink_trans
        (sameNonLink_setE_p _ nx (getE (setE p pr (fun x => { x with next := (getE p i).next })) i).prev)
        (sameNonLink_setE_pn _ i none none)

end Multicache


namespace Multicache

theorem setWithHash_update (fuel : Nat) (hasher : Nat → Nat) (k v : Nat) (exp : Int) (hash : Nat)
    (s : SState) (eid : Nat) (hload : mapLoad s.shard.entries k = some eid) :
    setWithHash fuel hasher k v exp hash s = Res.ok { s with shard := { s.shard with
      pool := setE s.shard.pool eid (fun e => bumpFreq { e with value := v, expiryNano := exp }) } } := by
  unfold setWithHash
  rw [hload]

theorem shardGet_deathRow (k : Nat) (now : Int) (s : SState) (eid : Nat)
    (hload : mapLoad s.shard.entries k = some eid)
    (hdr : (getE s.shard.pool eid).onDeathRow = true)
    (hlt : eid < s.shard.pool.length) :
    (shardGet k now s).2.1 = (getE s.shard.pool eid).value
    ∧ (shardGet k now s).2.2 = true
    ∧ (shardGet k now s).1.shard.main.tail = some eid
    ∧ (getE (shardGet k now s).1.shard.pool eid).onDeathRow = false
    ∧ (shardGet k now s).1.totalEntries = s.totalEntries + 1 := by
  unfold shardGet
  rw [hload]
  dsimp only
  rw [if_pos hdr]
  unfold resurrectFromDeathRow
  rw [hload]
  dsimp only
  rw [if_neg (by simp [hdr])]
  refine ⟨rfl, rfl, pushBack_tail _ _ _, ?_, rfl⟩
  have h1 := (sameNonLink_pushBack
    (setE s.shard.pool eid
      (fun x => { x with onDeathRow := false, inSmall := false, freq := 3, peakFreq := 3 }))
    { s.shard with deathRow := clearFirstSlot s.shard.deathRow eid }.main eid) eid
  rw [h1.2.2.2.2.2.2.2, getE_setE, if_pos ⟨rfl, hlt⟩]

end Multicache

namespace Multicache

/-- C10 (amended): a `set` of a key whose entry is on death row updates
only that entry in place — value and expiry overwritten, frequency bumped
exactly when below `maxFreq = 7` and left unchanged at the cap — while
the queues, the death row, the map and the global counter stay untouched;
the following `get` resurrects the entry onto the tail of main and
returns the new value with a hit. -/
theorem c10_amended (fuel : Nat) (hasher : Nat → Nat) (k v' : Nat) (ttl' now : Int)
    (s : SState) (eid : Nat)
    (hload : mapLoad s.shard.entries k = some eid)
    (hdr : (getE s.shard.pool eid).onDeathRow = true)
    (hlt : eid < s.shard.pool.length) :
    ∃ s', setWithHash fuel hasher k v' ttl' 0 s = Res.ok s'
      ∧ s'.shard.small = s.shard.small
      ∧ s'.shard.main = s.shard.main
      ∧ s'.shard.deathRow = s.shard.deathRow
      ∧ s'.shard.entries = s.shard.entries
      ∧ s'.totalEntries = s.totalEntries
      ∧ (getE s'.shard.pool eid).onDeathRow = true
      ∧ (getE s'.shard.pool eid).value = v'
      ∧ (getE s'.shard.pool eid).expiryNano = ttl'
      ∧ (getE s'.shard.pool eid).freq =
          (if (getE s.shard.pool eid).freq < maxFreq then (getE s.shard.pool eid).freq + 1
           else (getE s.shard.pool eid).freq)
      ∧ (∀ j, j ≠ eid → getE s'.shard.pool j = getE s.shard.pool j)
      ∧ (shardGet k now s').2.2 = true
      ∧ (shardGet k now s').2.1 = v'
      ∧ (getE (shardGet k now s').1.shard.pool eid).onDeathRow = false
      ∧ (shardGet k now s').1.shard.main.tail = some eid := by
  refine ⟨_, setWithHash_update fuel hasher k v' ttl' 0 s eid hload, rfl, rfl, rfl, rfl, rfl,
    ?_, ?_, ?_, ?_, ?_, ?_, ?_, ?_, ?_⟩
  case _ => -- onDeathRow still true
    rw [getE_setE, if_pos ⟨rfl, hlt⟩, (bumpFreq_meta _).2.2.2.2.2.1]
    exact hdr
  case _ => -- value
    rw [getE_setE, if_pos ⟨rfl, hlt⟩, (bumpFreq_meta _).2.1]
  case _ => -- expiry
    rw [getE_setE, if_pos ⟨rfl, hlt⟩, (bumpFreq_meta _).2.2.2.1]
  case _ => -- freq formula
    rw [getE_setE, if_pos ⟨rfl, hlt⟩, bumpFreq_freq]
  case _ => -- frame
    intro j hj
    rw [getE_setE, if_neg (by intro hh; exact hj hh.1)]
  all_goals {
    have hload2 : mapLoad ({ s with shard := { s.shard with
        pool := setE s.shard.pool eid (fun e => bumpFreq { e with value := v', expiryNano := ttl' }) } } : SState).shard.entries k = some eid := hload
    have hdr2 : (getE (setE s.shard.pool eid (fun e => bumpFreq { e with value := v', expiryNano := ttl' })) eid).onDeathRow = true := by
      rw [getE_setE, if_pos ⟨rfl, hlt⟩, (bumpFreq_meta _).2.2.2.2.2.1]
      exact hdr
    have hlt2 : eid < (setE s.shard.pool eid (fun e => bumpFreq { e with value := v', expiryNano := ttl' })).length := by
      rw [setE_length]; exact hlt
    have hres := shardGet_deathRow k now _ eid hload2 hdr2 hlt2
    first
    | exact hres.2.1
    | (rw [hres.1, getE_setE, if_pos ⟨rfl, hlt⟩, (bumpFreq_meta _).2.1])
    | exact hres.2.2.2.1
    | exact hres.2.2.1
  }

end Multicache

namespace Multicache

theorem getD_set_self {α : Type} (l : List α) (i : Nat) (x d : α) (h : i < l.length) :
    (l.set i x).getD i d = x := by
  rw [List.getD_eq_getElem _ _ (by simpa using h)]
  exact List.getElem_set_self (by simpa using h)

theorem listRemove_len (p : Pool) (l : EntryList) (i : Nat) :
    ((listRemove p l i).2).len = l.len - 1 := by
  unfold listRemove
  dsimp only
  cases hp : (getE p i).prev with
  | none =>
    cases hn : (getE p i).next with
    | none => rfl
    | some nx => rfl
  | some pr =>
    cases hn : (getE (setE p pr (fun x => { x with next := (getE p i).next })) i).next with
    | none => rfl
    | some nx => rfl

theorem listRemove_pool_len (p : Pool) (l : EntryList) (i : Nat) :
    ((listRemove p l i).1).length = p.length := by
  unfold listRemove
  dsimp only
  cases hp : (getE p i).prev with
  | none =>
    cases hn : (getE p i).next with
    | none => simp [setE_length]
    | some nx => simp [setE_length]
  | some pr =>
    cases hn : (getE (setE p pr (fun x => { x with next := (getE p i).next })) i).next with
    | none => simp [setE_length]
    | some nx => simp [setE_length]

theorem addToGhost_frame (s : SState) (h pk : Nat) :
    (addToGhost s h pk).shard.pool = s.shard.pool
    ∧ (addToGhost s h pk).shard.entries = s.shard.entries
    ∧ (addToGhost s h pk).shard.small = s.shard.small
    ∧ (addToGhost s h pk).shard.main = s.shard.main
    ∧ (addToGhost s h pk).shard.deathRow = s.shard.deathRow
    ∧ (addToGhost s h pk).shard.deathRowPos = s.shard.deathRowPos
    ∧ (addToGhost s h pk).totalEntries = s.totalEntries
    ∧ (addToGhost s h pk).capacityG = s.capacityG
    ∧ (addToGhost s h pk).shard.capacity = s.shard.capacity
    ∧ (addToGhost s h pk).shard.smallThresh = s.shard.smallThresh
    ∧ (addToGhost s h pk).shard.warmupComplete = s.shard.warmupComplete
    ∧ (addToGhost s h pk).shard.ghostCap = s.shard.ghostCap := by
  unfold addToGhost
  by_cases h1 : bloomContains s.shard.ghostActive h = true
  · simp only [h1, if_pos]
    by_cases h2 : (if s.shard.ghostActive.entries ≥ s.shard.ghostCap then True else False)
    · by_cases h3 : s.shard.ghostActive.entries ≥ s.shard.ghostCap
      · simp [h3]
      · simp [h3]
    · by_cases h3 : s.shard.ghostActive.entries ≥ s.shard.ghostCap
      · simp [h3]
      · simp [h3]
  · simp only [h1]
    by_cases h4 : pk ≥ 2 <;> by_cases h3 : (bloomAdd s.shard.ghostActive h).entries ≥ s.shard.ghostCap <;>
      simp [h4, h3]

theorem sendToDeathRow_spec (s : SState) (eid : Nat)
    (hpos : s.shard.deathRowPos < s.shard.deathRow.length)
    (hlt : eid < s.shard.pool.length) :
    (sendToDeathRow s eid).shard.deathRow.getD s.shard.deathRowPos none = some eid
    ∧ (getE (sendToDeathRow s eid).shard.pool eid).onDeathRow = true
    ∧ (sendToDeathRow s eid).shard.deathRowPos
        = (s.shard.deathRowPos + 1) % s.shard.deathRow.length
    ∧ (sendToDeathRow s eid).totalEntries = s.totalEntries - 1
    ∧ (sendToDeathRow s eid).shard.main = s.shard.main
    ∧ (sendToDeathRow s eid).shard.small = s.shard.small := by
  unfold sendToDeathRow
  dsimp only
  cases hold : s.shard.deathRow.getD s.shard.deathRowPos none with
  | none =>
    dsimp only
    refine ⟨getD_set_self _ _ _ _ hpos, ?_, rfl, rfl, rfl, rfl⟩
    rw [getE_setE, if_pos ⟨rfl, hlt⟩]
  | some oldId =>
    dsimp only
    have hfr := addToGhost_frame
      { s with shard := { s.shard with
          entries := mapDelete s.shard.entries (getE s.shard.pool oldId).key } }
      (getE s.shard.pool oldId).hash (getE s.shard.pool oldId).peakFreq
    simp only [hfr.1, hfr.2.1, hfr.2.2.1, hfr.2.2.2.1, hfr.2.2.2.2.1, hfr.2.2.2.2.2.1,
      hfr.2.2.2.2.2.2.1, hfr.2.2.2.2.2.2.2.1]
    have hlt2 : eid < (setE s.shard.pool oldId (fun e => { e with onDeathRow := false })).length := by
      rw [setE_length]
      exact hlt
    refine ⟨getD_set_self _ _ _ _ hpos, ?_, trivial, trivial, trivial, trivial⟩
    rw [getE_setE, if_pos ⟨rfl, hlt2⟩]

end Multicache

namespace Multicache

/-- C8: during a round of main eviction whose head has `freq = 0`, a head
with `peak_freq ≥ 4` is dequeued from main and re-enqueued at the tail of
small with `freq = 1` and `in_small` set, the round ending without an
eviction (map, death row and counter untouched); a head with
`peak_freq < 4` is dequeued and parked in the current death-row slot,
cursor advanced and counter decremented. -/
theorem c8_main_eviction (fuel : Nat) (s : SState) (eid : Nat)
    (hlen : s.shard.main.len > 0)
    (hhead : s.shard.main.head = some eid)
    (hfreq : (getE s.shard.pool eid).freq = 0)
    (hpos : s.shard.deathRowPos < s.shard.deathRow.length)
    (hlt : eid < s.shard.pool.length) :
    ((getE s.shard.pool eid).peakFreq ≥ 4 →
      ∃ s', evictFromMain (fuel + 1) s = Res.ok s'
        ∧ s'.shard.small.tail = some eid
        ∧ (getE s'.shard.pool eid).freq = 1
        ∧ (getE s'.shard.pool eid).inSmall = true
        ∧ s'.shard.main.len = s.shard.main.len - 1
        ∧ s'.shard.entries = s.shard.entries
        ∧ s'.shard.deathRow = s.shard.deathRow
        ∧ s'.totalEntries = s.totalEntries)
    ∧ ((getE s.shard.pool eid).peakFreq < 4 →
      ∃ s', evictFromMain (fuel + 1) s = Res.ok s'
        ∧ s'.shard.deathRow.getD s.shard.deathRowPos none = some eid
        ∧ (getE s'.shard.pool eid).onDeathRow = true
        ∧ s'.shard.main.len = s.shard.main.len - 1
        ∧ s'.shard.deathRowPos = (s.shard.deathRowPos + 1) % s.shard.deathRow.length
        ∧ s'.totalEntries = s.totalEntries - 1) := by
  have hrm := sameNonLink_listRemove s.shard.pool s.shard.main eid
  have hpk : (getE (listRemove s.shard.pool s.shard.main eid).1 eid).peakFreq
      = (getE s.shard.pool eid).peakFreq := (hrm eid).2.2.2.2.2.1
  have hlt1 : eid < (listRemove s.shard.pool s.shard.main eid).1.length := by
    rw [listRemove_pool_len]
    exact hlt
  constructor
  · intro hp4
    refine ⟨{ s with shard := { s.shard with
        pool := (pushBack
          (setE (listRemove s.shard.pool s.shard.main eid).1 eid
            (fun e => { e with freq := 1, inSmall := true })) s.shard.small eid).1
        main := (listRemove s.shard.pool s.shard.main eid).2
        small := (pushBack
          (setE (listRemove s.shard.pool s.shard.main eid).1 eid
            (fun e => { e with freq := 1, inSmall := true })) s.shard.small eid).2 } },
      ?_, ?_, ?_, ?_, ?_, rfl, rfl, rfl⟩
    · unfold evictFromMain
      rw [if_pos hlen, hhead]
      dsimp only
      rw [if_pos hfreq]
      rw [if_pos (le_of_le_of_eq hp4 hpk.symm)]
    · exact pushBack_tail _ _ _
    · have h2 := (sameNonLink_pushBack
        (setE (listRemove s.shard.pool s.shard.main eid).1 eid
          (fun e => { e with freq := 1, inSmall := true })) s.shard.small eid) eid
      rw [h2.2.2.2.2.1, getE_setE, if_pos ⟨rfl, hlt1⟩]
    · have h2 := (sameNonLink_pushBack
        (setE (listRemove s.shard.pool s.shard.main eid).1 eid
          (fun e => { e with freq := 1, inSmall := true })) s.shard.small eid) eid
      rw [h2.2.2.2.2.2.2.1, getE_setE, if_pos ⟨rfl, hlt1⟩]
    · exact listRemove_len _ _ _
  · intro hp4
    have hsend := sendToDeathRow_spec
      { s with shard := { s.shard with
          pool := (listRemove s.shard.pool s.shard.main eid).1
          main := (listRemove s.shard.pool s.shard.main eid).2 } } eid hpos hlt1
    refine ⟨sendToDeathRow
      { s with shard := { s.shard with
          pool := (listRemove s.shard.pool s.shard.main eid).1
          main := (listRemove s.shard.pool s.shard.main eid).2 } } eid,
      ?_, hsend.1, hsend.2.1, ?_, hsend.2.2.1, hsend.2.2.2.1⟩
    · unfold evictFromMain
      rw [if_pos hlen, hhead]
      dsimp only
      rw [if_pos hfreq]
      rw [if_neg (by rw [hpk]; exact Nat.not_le_of_lt hp4)]
    · rw [hsend.2.2.2.2.1]
      exact listRemove_len _ _ _

end Multicache

namespace Multicache

theorem sameMeta_refl (p : Pool) : SameMeta p p := fun _ => ⟨rfl, rfl, rfl, rfl⟩

theorem sameMeta_trans {p q r : Pool} (h1 : SameMeta p q) (h2 : SameMeta q r) : SameMeta p r := by
  intro j
  obtain ⟨a1, b1, c1, d1⟩ := h1 j
  obtain ⟨a2, b2, c2, d2⟩ := h2 j
  exact ⟨a2.trans a1, b2.trans b1, c2.trans c1, d2.trans d1⟩

theorem sameNonLink_sameMeta {p q : Pool} (h : SameNonLink p q) : SameMeta p q := by
  intro j
  obtain ⟨a, b, c, d, _, _, _, _⟩ := h j
  exact ⟨a, b, c, d⟩

theorem sameMeta_setE (p : Pool) (i : Nat) (f : GoEntry → GoEntry)
    (hf : ∀ e, (f e).key = e.key ∧ (f e).value = e.value ∧ (f e).hash = e.hash
      ∧ (f e).expiryNano = e.expiryNano) :
    SameMeta p (setE p i f) := by
  intro j
  rw [getE_setE]
  by_cases hj : j = i ∧ j < p.length
  · rw [if_pos hj]
    exact hf (getE p j)
  · rw [if_neg hj]
    exact ⟨rfl, rfl, rfl, rfl⟩

set_option maxHeartbeats 2000000

theorem sameMeta_setE_dr (q : Pool) (j : Nat) (b : Bool) :
    SameMeta q (setE q j (fun e => { e with onDeathRow := b })) :=
  sameMeta_setE q j _ (fun _ => ⟨rfl, rfl, rfl, rfl⟩)

theorem sameMeta_setE_fi (q : Pool) (j n : Nat) (b : Bool) :
    SameMeta q (setE q j (fun e => { e with freq := n, inSmall := b })) :=
  sameMeta_setE q j _ (fun _ => ⟨rfl, rfl, rfl, rfl⟩)

theorem sameMeta_setE_f (q : Pool) (j n : Nat) :
    SameMeta q (setE q j (fun e => { e with freq := n })) :=
  sameMeta_setE q j _ (fun _ => ⟨rfl, rfl, rfl, rfl⟩)

theorem sameMeta_setE_fp (q : Pool) (j n m : Nat) :
    SameMeta q (setE q j (fun e => { e with freq := n, peakFreq := m })) :=
  sameMeta_setE q j _ (fun _ => ⟨rfl, rfl, rfl, rfl⟩)

theorem sameMeta_setE_resur (q : Pool) (j : Nat) :
    SameMeta q (setE q j
      (fun x => { x with onDeathRow := false, inSmall := false, freq := 3, peakFreq := 3 })) :=
  sameMeta_setE q j _ (fun _ => ⟨rfl, rfl, rfl, rfl⟩)

theorem sameMeta_setE_bump (q : Pool) (j : Nat) :
    SameMeta q (setE q j bumpFreq) :=
  sameMeta_setE q j _ (fun e =>
    ⟨(bumpFreq_meta e).1, (bumpFreq_meta e).2.1, (bumpFreq_meta e).2.2.1, (bumpFreq_meta e).2.2.2.1⟩)

theorem sendToDeathRow_frame (s : SState) (eid : Nat) :
    (sendToDeathRow s eid).shard.capacity = s.shard.capacity
    ∧ (sendToDeathRow s eid).shard.smallThresh = s.shard.smallThresh
    ∧ (sendToDeathRow s eid).capacityG = s.capacityG
    ∧ (sendToDeathRow s eid).shard.warmupComplete = s.shard.warmupComplete := by
  unfold sendToDeathRow
  dsimp only
  cases hold : s.shard.deathRow.getD s.shard.deathRowPos none with
  | none => exact ⟨rfl, rfl, rfl, rfl⟩
  | some oldId =>
    dsimp only
    have hfr := addToGhost_frame
      { s with shard := { s.shard with
          entries := mapDelete s.shard.entries (getE s.shard.pool oldId).key } }
      (getE s.shard.pool oldId).hash (getE s.shard.pool oldId).peakFreq
    obtain ⟨f1, f2, f3, f4, f5, f6, f7, f8, f9, f10, f11, f12⟩ := hfr
    simp only [f8, f9, f10, f11]
    exact ⟨trivial, trivial, trivial, trivial⟩

theorem sendToDeathRow_meta (s : SState) (eid : Nat) :
    SameMeta s.shard.pool (sendToDeathRow s eid).shard.pool
    ∧ (sendToDeathRow s eid).shard.pool.length = s.shard.pool.length := by
  unfold sendToDeathRow
  dsimp only
  cases hold : s.shard.deathRow.getD s.shard.deathRowPos none with
  | none =>
    dsimp only
    constructor
    · exact sameMeta_setE_dr _ _ true
    · exact setE_length _ _ _
  | some oldId =>
    dsimp only
    have hfr := addToGhost_frame
      { s with shard := { s.shard with
          entries := mapDelete s.shard.entries (getE s.shard.pool oldId).key } }
      (getE s.shard.pool oldId).hash (getE s.shard.pool oldId).peakFreq
    simp only [hfr.1]
    constructor
    · exact sameMeta_trans (sameMeta_setE_dr _ oldId false) (sameMeta_setE_dr _ eid true)
    · rw [setE_length, setE_length]

theorem evictFromMain_meta (fuel : Nat) :
    ∀ (s s' : SState), evictFromMain fuel s = Res.ok s' →
    SameMeta s.shard.pool s'.shard.pool
    ∧ s'.shard.pool.length = s.shard.pool.length
    ∧ s'.shard.capacity = s.shard.capacity
    ∧ s'.shard.smallThresh = s.shard.smallThresh
    ∧ s'.capacityG = s.capacityG := by
  induction fuel with
  | zero => intro s s' h; exact absurd h (by simp [evictFromMain])
  | succ n ih =>
    intro s s' h
    unfold evictFromMain at h
    by_cases hlen : s.shard.main.len > 0
    · rw [if_pos hlen] at h
      cases hhead : s.shard.main.head with
      | none => rw [hhead] at h; exact absurd h (by simp)
      | some eid =>
        rw [hhead] at h
        dsimp only at h
        by_cases hf : (getE s.shard.pool eid).freq = 0
        · rw [if_pos hf] at h
          by_cases hpk : (getE (listRemove s.shard.pool s.shard.main eid).1 eid).peakFreq ≥ 4
          · rw [if_pos hpk] at h
            cases h
            refine ⟨?_, ?_, rfl, rfl, rfl⟩
            · exact sameMeta_trans
                (sameNonLink_sameMeta (sameNonLink_listRemove _ _ _))
                (sameMeta_trans (sameMeta_setE_fi _ eid 1 true)
                  (sameNonLink_sameMeta (sameNonLink_pushBack _ _ _)))
            · rw [pushBack_pool_len, setE_length, listRemove_pool_len]
          · rw [if_neg hpk] at h
            cases h
            have hm := sendToDeathRow_meta
              { s with shard := { s.shard with
                  pool := (listRemove s.shard.pool s.shard.main eid).1
                  main := (listRemove s.shard.pool s.shard.main eid).2 } } eid
            have hfr2 := sendToDeathRow_frame
              { s with shard := { s.shard with
                  pool := (listRemove s.shard.pool s.shard.main eid).1
                  main := (listRemove s.shard.pool s.shard.main eid).2 } } eid
            refine ⟨?_, ?_, hfr2.1, hfr2.2.1, hfr2.2.2.1⟩
            · exact sameMeta_trans
                (sameNonLink_sameMeta (sameNonLink_listRemove _ _ _)) hm.1
            · rw [hm.2]
              exact listRemove_pool_len _ _ _
        · rw [if_neg hf] at h
          have ihr := ih _ _ h
          refine ⟨?_, ?_, ihr.2.2.1, ihr.2.2.2.1, ihr.2.2.2.2⟩
          · refine sameMeta_trans ?_ ihr.1
            exact sameMeta_trans
              (sameNonLink_sameMeta (sameNonLink_listRemove _ _ _))
              (sameMeta_trans (sameMeta_setE_f _ eid ((getE s.shard.pool eid).freq - 1))
                (sameNonLink_sameMeta (sameNonLink_pushBack _ _ _)))
          · rw [ihr.2.1]
            dsimp only
            rw [pushBack_pool_len, setE_length, listRemove_pool_len]
    · rw [if_neg hlen] at h
      cases h
      exact ⟨sameMeta_refl _, rfl, rfl, rfl, rfl⟩

end Multicache

namespace Multicache

theorem promoteStep_meta (s : SState) (eid : Nat) :
    SameMeta s.shard.pool (pushBack
      (setE (listRemove s.shard.pool s.shard.small eid).1 eid
        (fun e => { e with freq := 0, inSmall := false })) s.shard.main eid).1
    ∧ (pushBack
      (setE (listRemove s.shard.pool s.shard.small eid).1 eid
        (fun e => { e with freq := 0, inSmall := false })) s.shard.main eid).1.length
      = s.shard.pool.length := by
  constructor
  · exact sameMeta_trans (sameNonLink_sameMeta (sameNonLink_listRemove _ _ _))
      (sameMeta_trans (sameMeta_setE_fi _ eid 0 false)
        (sameNonLink_sameMeta (sameNonLink_pushBack _ _ _)))
  · rw [pushBack_pool_len, setE_length, listRemove_pool_len]

theorem evictFromSmall_meta (fuel : Nat) :
    ∀ (s s' : SState), evictFromSmall fuel s = Res.ok s' →
    SameMeta s.shard.pool s'.shard.pool
    ∧ s'.shard.pool.length = s.shard.pool.length
    ∧ s'.shard.capacity = s.shard.capacity
    ∧ s'.shard.smallThresh = s.shard.smallThresh
    ∧ s'.capacityG = s.capacityG := by
  induction fuel with
  | zero => intro s s' h; exact absurd h (by simp [evictFromSmall])
  | succ n ih =>
    intro s s' h
    unfold evictFromSmall at h
    by_cases hlen : s.shard.small.len > 0
    · rw [if_pos hlen] at h
      cases hhead : s.shard.small.head with
      | none => rw [hhead] at h; exact absurd h (by simp)
      | some eid =>
        rw [hhead] at h
        dsimp only at h
        by_cases hf : (getE s.shard.pool eid).freq < 2
        · rw [if_pos hf] at h
          cases h
          have hm := sendToDeathRow_meta
            { s with shard := { s.shard with
                pool := (listRemove s.shard.pool s.shard.small eid).1
                small := (listRemove s.shard.pool s.shard.small eid).2 } } eid
          have hfr2 := sendToDeathRow_frame
            { s with shard := { s.shard with
                pool := (listRemove s.shard.pool s.shard.small eid).1
                small := (listRemove s.shard.pool s.shard.small eid).2 } } eid
          refine ⟨?_, ?_, hfr2.1, hfr2.2.1, hfr2.2.2.1⟩
          · exact sameMeta_trans
              (sameNonLink_sameMeta (sameNonLink_listRemove _ _ _)) hm.1
          · rw [hm.2]
            exact listRemove_pool_len _ _ _
        · rw [if_neg hf] at h
          split at h
          · -- main overshoots: nested main eviction, then the loop continues
            split at h
            · rename_i s2 hem
              have hm := evictFromMain_meta n _ _ hem
              have ihr := ih _ _ h
              refine ⟨?_, ?_, ?_, ?_, ?_⟩
              · exact sameMeta_trans (promoteStep_meta s eid).1 (sameMeta_trans hm.1 ihr.1)
              · rw [ihr.2.1, hm.2.1]
                exact (promoteStep_meta s eid).2
              · rw [ihr.2.2.1, hm.2.2.1]
              · rw [ihr.2.2.2.1, hm.2.2.2.1]
              · rw [ihr.2.2.2.2, hm.2.2.2.2]
            · exact absurd h (by simp)
            · exact absurd h (by simp)
          · -- no overshoot: the loop continues directly
            have ihr := ih _ _ h
            refine ⟨sameMeta_trans (promoteStep_meta s eid).1 ihr.1, ?_,
              ihr.2.2.1, ihr.2.2.2.1, ihr.2.2.2.2⟩
            rw [ihr.2.1]
            exact (promoteStep_meta s eid).2
    · rw [if_neg hlen] at h
      cases h
      exact ⟨sameMeta_refl _, rfl, rfl, rfl, rfl⟩

end Multicache

namespace Multicache

theorem getE_append (p : Pool) (ent : GoEntry) : getE (p ++ [ent]) p.length = ent := by
  unfold getE
  rw [List.getD_eq_getElem _ _ (by simp)]
  exact List.getElem_concat_length p ent p.length rfl (by simp)

theorem find_map_store (m : List (Nat × Nat)) (k i : Nat)
    (hf : (m.find? (fun p => p.1 = k)).isSome) :
    (m.map (fun p => if p.1 = k then (k, i) else p)).find? (fun p => p.1 = k) = some (k, i) := by
  induction m with
  | nil => simp at hf
  | cons a m ih =>
    by_cases ha : a.1 = k
    · rw [List.map_cons, if_pos ha, List.find?_cons_of_pos _ (by simp)]
    · rw [List.map_cons, if_neg ha, List.find?_cons_of_neg _ (by simpa using ha)]
      refine ih ?_
      rwa [List.find?_cons_of_neg _ (by simpa using ha)] at hf

theorem find_append_store (m : List (Nat × Nat)) (k i : Nat)
    (hf : m.find? (fun p => p.1 = k) = none) :
    (m ++ [(k, i)]).find? (fun p => p.1 = k) = some (k, i) := by
  induction m with
  | nil => simp
  | cons a m ih =>
    rw [List.cons_append]
    have ha : ¬ a.1 = k := by
      intro ha
      rw [List.find?_cons_of_pos _ (by simpa using ha)] at hf
      exact Option.noConfusion hf
    rw [List.find?_cons_of_neg _ (by simpa using ha)]
    refine ih ?_
    rwa [List.find?_cons_of_neg _ (by simpa using ha)] at hf

theorem mapStore_load (m : List (Nat × Nat)) (k i : Nat) :
    mapLoad (mapStore m k i) k = some i := by
  unfold mapLoad mapStore
  by_cases hf : (m.find? (fun p => p.1 = k)).isSome
  · rw [if_pos hf, find_map_store m k i hf]
    rfl
  · rw [if_neg hf, find_append_store m k i (Option.not_isSome_iff_eq_none.mp hf)]
    rfl

theorem sameMeta_setE_ins (q : Pool) (j : Nat) (b : Bool) :
    SameMeta q (setE q j (fun e => { e with inSmall := b })) :=
  sameMeta_setE q j _ (fun _ => ⟨rfl, rfl, rfl, rfl⟩)

theorem shardGet_found (k : Nat) (now : Int) (s : SState) (i : Nat)
    (hl : mapLoad s.shard.entries k = some i)
    (hx : (getE s.shard.pool i).expiryNano = 0) :
    (shardGet k now s).2.1 = (getE s.shard.pool i).value ∧ (shardGet k now s).2.2 = true := by
  unfold shardGet
  rw [hl]
  dsimp only
  by_cases hdr : (getE s.shard.pool i).onDeathRow = true
  · rw [if_pos hdr]
    unfold resurrectFromDeathRow
    rw [hl]
    dsimp only
    rw [if_neg (by simp [hdr])]
    exact ⟨rfl, rfl⟩
  · rw [if_neg hdr, if_neg (by rw [hx]; simp)]
    exact ⟨rfl, rfl⟩

end Multicache

namespace Multicache

theorem ghostAdmit_meta (h eid : Nat) (s : SState) :
    SameMeta s.shard.pool (ghostAdmit h eid s).shard.pool
    ∧ (ghostAdmit h eid s).shard.pool.length = s.shard.pool.length
    ∧ (ghostAdmit h eid s).shard.entries = s.shard.entries
    ∧ (ghostAdmit h eid s).totalEntries = s.totalEntries
    ∧ (ghostAdmit h eid s).capacityG = s.capacityG
    ∧ (ghostAdmit h eid s).shard.capacity = s.shard.capacity
    ∧ (ghostAdmit h eid s).shard.smallThresh = s.shard.smallThresh := by
  unfold ghostAdmit
  dsimp only
  split
  · split
    · refine ⟨?_, ?_, rfl, rfl, rfl, rfl, rfl⟩
      · exact sameMeta_trans (sameMeta_setE_ins _ eid _) (sameMeta_setE_fp _ eid _ _)
      · rw [setE_length, setE_length]
    · refine ⟨sameMeta_setE_ins _ eid _, ?_, rfl, rfl, rfl, rfl, rfl⟩
      rw [setE_length]
  · refine ⟨sameMeta_setE_ins _ eid _, ?_, rfl, rfl, rfl, rfl, rfl⟩
    rw [setE_length]

theorem admissionRound_meta (fuel : Nat) (s s' : SState)
    (h : admissionRound fuel s = Res.ok s') :
    SameMeta s.shard.pool s'.shard.pool
    ∧ s'.shard.pool.length = s.shard.pool.length
    ∧ s'.shard.capacity = s.shard.capacity
    ∧ s'.shard.smallThresh = s.shard.smallThresh
    ∧ s'.capacityG = s.capacityG := by
  unfold admissionRound at h
  split at h
  · exact evictFromMain_meta fuel s s' h
  · split at h
    · exact evictFromSmall_meta fuel s s' h
    · cases h
      exact ⟨sameMeta_refl _, rfl, rfl, rfl, rfl⟩

theorem setWithHash_ok (fuel : Nat) (hasher : Nat → Nat) (k v : Nat) (x : Int) (hash : Nat)
    (s s' : SState)
    (hins : ∀ i, mapLoad s.shard.entries k = some i → i < s.shard.pool.length)
    (hok : setWithHash fuel hasher k v x hash s = Res.ok s') :
    ∃ i, mapLoad s'.shard.entries k = some i ∧ i < s'.shard.pool.length
      ∧ (getE s'.shard.pool i).value = v ∧ (getE s'.shard.pool i).expiryNano = x := by
  unfold setWithHash at hok
  cases hl : mapLoad s.shard.entries k with
  | some eid =>
    rw [hl] at hok
    dsimp only at hok
    cases hok
    refine ⟨eid, hl, ?_, ?_, ?_⟩
    · rw [setE_length]
      exact hins eid hl
    · rw [getE_setE, if_pos ⟨rfl, hins eid hl⟩, (bumpFreq_meta _).2.1]
    · rw [getE_setE, if_pos ⟨rfl, hins eid hl⟩, (bumpFreq_meta _).2.2.2.1]
  | none =>
    rw [hl] at hok
    dsimp only at hok
    split at hok
    · -- warmup admission
      cases hok
      refine ⟨s.shard.pool.length, mapStore_load _ _ _, ?_, ?_, ?_⟩
      · rw [pushBack_pool_len, setE_length]
        simp
      · rw [((sameNonLink_pushBack _ _ _) _).2.1, getE_setE, if_pos ⟨rfl, by simp⟩]
        dsimp only
        rw [getE_append]
        rfl
      · rw [((sameNonLink_pushBack _ _ _) _).2.2.2.1, getE_setE, if_pos ⟨rfl, by simp⟩]
        dsimp only
        rw [getE_append]
        rfl
    · -- warm or full: possibly an eviction round, then the push and store
      by_cases hfull : s.totalEntries ≥ (s.capacityG : Int)
      · rw [if_pos hfull] at hok
        generalize hhash : (if hash = 0 then hasher k else hash) = hval at hok
        split at hok
        · exact absurd hok (by simp)
        · exact absurd hok (by simp)
        rename_i s1 hround
        have har := admissionRound_meta fuel _ _ hround
        have hm : SameMeta (s.shard.pool ++ [mkEnt k v hval x]) s1.shard.pool
            ∧ s1.shard.pool.length = s.shard.pool.length + 1 := by
          constructor
          · exact sameMeta_trans (ghostAdmit_meta _ _ _).1 har.1
          · rw [har.2.1, (ghostAdmit_meta _ _ _).2.1]
            simp
        cases hok
        refine ⟨s.shard.pool.length, ?_, ?_, ?_, ?_⟩
        · split
          · exact mapStore_load _ _ _
          · exact mapStore_load _ _ _
        · split
          · dsimp only
            rw [pushBack_pool_len, hm.2]
            simp
          · dsimp only
            rw [pushBack_pool_len, hm.2]
            simp
        · have hv := ((hm.1) s.shard.pool.length).2.1
          split
          · dsimp only
            rw [((sameNonLink_pushBack _ _ _) _).2.1, hv, getE_append]
            rfl
          · dsimp only
            rw [((sameNonLink_pushBack _ _ _) _).2.1, hv, getE_append]
            rfl
        · have hv := ((hm.1) s.shard.pool.length).2.2.2
          split
          · dsimp only
            rw [((sameNonLink_pushBack _ _ _) _).2.2.2.1, hv, getE_append]
            rfl
          · dsimp only
            rw [((sameNonLink_pushBack _ _ _) _).2.2.2.1, hv, getE_append]
            rfl
      · rw [if_neg hfull] at hok
        generalize hhash : (if hash = 0 then hasher k else hash) = hval at hok
        dsimp only at hok
        cases hok
        refine ⟨s.shard.pool.length, ?_, ?_, ?_, ?_⟩
        · split
          · exact mapStore_load _ _ _
          · exact mapStore_load _ _ _
        · split
          · dsimp only
            rw [pushBack_pool_len, setE_length]
            simp
          · dsimp only
            rw [pushBack_pool_len, setE_length]
            simp
        · split
          · dsimp only
            rw [((sameNonLink_pushBack _ _ _) _).2.1, getE_setE, if_pos ⟨rfl, by simp⟩]
            dsimp only
            rw [getE_append]
            rfl
          · dsimp only
            rw [((sameNonLink_pushBack _ _ _) _).2.1, getE_setE, if_pos ⟨rfl, by simp⟩]
            dsimp only
            rw [getE_append]
            rfl
        · split
          · dsimp only
            rw [((sameNonLink_pushBack _ _ _) _).2.2.2.1, getE_setE, if_pos ⟨rfl, by simp⟩]
            dsimp only
            rw [getE_append]
            rfl
          · dsimp only
            rw [((sameNonLink_pushBack _ _ _) _).2.2.2.1, getE_setE, if_pos ⟨rfl, by simp⟩]
            dsimp only
            rw [getE_append]
            rfl

end Multicache

namespace Multicache

theorem takeShard_putShard (e : Engine) (idx : Nat) (ss : SState)
    (h : idx < e.shards.length) :
    takeShard (putShard e idx ss) idx =
      { shard := ss.shard, totalEntries := ss.totalEntries, capacityG := e.capacity } := by
  unfold takeShard putShard
  dsimp only
  rw [getD_set_self _ _ _ _ h]

theorem engineGet_after (k : Nat) (now : Int) (e0 : Engine) :
    engineGet k now e0 =
      (putShard e0 (shardIdx e0 k) (shardGet k now (takeShard e0 (shardIdx e0 k))).1,
       (shardGet k now (takeShard e0 (shardIdx e0 k))).2.1,
       (shardGet k now (takeShard e0 (shardIdx e0 k))).2.2) := rfl

/-- C9 (amended): whenever `set(k, v)` with no expiry completes normally
from a state whose routed shard keeps its in-map entry ids inside the
pool and whose shard index is in range, an immediately following
`get(k)` returns `(v, true)`. -/
theorem c9_amended (fuel : Nat) (hasher : Nat → Nat) (k v : Nat) (now : Int) (e e2 : Engine)
    (hidx : shardIdx e k < e.shards.length)
    (hins : ∀ i, mapLoad (takeShard e (shardIdx e k)).shard.entries k = some i →
        i < (takeShard e (shardIdx e k)).shard.pool.length)
    (hok : engineSet fuel hasher k v 0 e = Res.ok e2) :
    (engineGet k now e2).2.1 = v ∧ (engineGet k now e2).2.2 = true := by
  unfold engineSet at hok
  dsimp only at hok
  generalize hsw : setWithHash fuel hasher k v 0 0 (takeShard e (shardIdx e k)) = r at hok
  cases r with
  | panic => exact absurd hok (by simp)
  | nofuel => exact absurd hok (by simp)
  | ok ss =>
    dsimp only at hok
    cases hok
    obtain ⟨i, hm, hlt, hv, hx⟩ := setWithHash_ok fuel hasher k v 0 0 _ ss hins hsw
    have hix : shardIdx (putShard e (shardIdx e k) ss) k = shardIdx e k := rfl
    rw [engineGet_after]
    dsimp only
    rw [hix, takeShard_putShard e (shardIdx e k) ss hidx]
    have hfound := shardGet_found k now
      { shard := ss.shard, totalEntries := ss.totalEntries, capacityG := e.capacity } i hm hx
    exact ⟨hfound.1.trans hv, hfound.2⟩

theorem c9_amended_witness :
    (engineGet 5 0 c9wE2).2.1 = 7 ∧ (engineGet 5 0 c9wE2).2.2 = true := by
  refine c9_amended 64 hsh 5 7 0 c9wE c9wE2 (by decide) ?_ (by rfl)
  intro i h
  rw [show mapLoad (takeShard c9wE (shardIdx c9wE 5)).shard.entries 5 = none from rfl] at h
  exact Option.noConfusion h

end Multicache

namespace Multicache

theorem scanRing_some (hs : List Nat) (fs : List Nat) (x f : Nat)
    (hlen : fs.length = hs.length) :
    scanRing hs fs x = some f ↔
      ∃ i, i < hs.length ∧ hs.getD i 0 = x ∧ (∀ j, j < i → hs.getD j 0 ≠ x)
        ∧ f = fs.getD i 0 := by
  induction hs generalizing fs with
  | nil =>
    constructor
    · intro hsc
      cases fs with
      | nil => exact absurd hsc (by simp [scanRing])
      | cons b fs => exact absurd hsc (by simp [scanRing])
    · rintro ⟨i, hi, _⟩
      exact absurd hi (by simp)
  | cons a hs ih =>
    cases fs with
    | nil => simp at hlen
    | cons b fs =>
      have hlen2 : fs.length = hs.length := by simpa using hlen
      simp only [scanRing]
      by_cases hax : a = x
      · rw [if_pos hax]
        constructor
        · intro hsc
          refine ⟨0, by simp, by simpa using hax, ?_, ?_⟩
          · intro j hj
            exact absurd hj (Nat.not_lt_zero j)
          · cases hsc
            rfl
        · rintro ⟨i, hi, hx, hbefore, hf⟩
          cases i with
          | zero =>
            cases hf
            rfl
          | succ i2 =>
            exact absurd (by simpa using hax) (hbefore 0 (Nat.succ_pos i2))
      · rw [if_neg hax]
        rw [ih fs hlen2]
        constructor
        · rintro ⟨i, hi, hx, hbefore, hf⟩
          refine ⟨i + 1, by simpa using hi, by simpa using hx, ?_, by simpa using hf⟩
          intro j hj
          cases j with
          | zero => simpa using hax
          | succ j2 =>
            have : j2 < i := by omega
            simpa using hbefore j2 this
        · rintro ⟨i, hi, hx, hbefore, hf⟩
          cases i with
          | zero => exact absurd (by simpa using hx) hax
          | succ i2 =>
            refine ⟨i2, by simpa using hi, by simpa using hx, ?_, by simpa using hf⟩
            intro j hj
            have := hbefore (j + 1) (by omega)
            simpa using this

theorem scanRing_none (hs : List Nat) (fs : List Nat) (x : Nat)
    (hlen : fs.length = hs.length) :
    scanRing hs fs x = none ↔ ∀ i, i < hs.length → hs.getD i 0 ≠ x := by
  induction hs generalizing fs with
  | nil =>
    cases fs with
    | nil => simp [scanRing]
    | cons b fs => simp [scanRing]
  | cons a hs ih =>
    cases fs with
    | nil => simp at hlen
    | cons b fs =>
      have hlen2 : fs.length = hs.length := by simpa using hlen
      simp only [scanRing]
      by_cases hax : a = x
      · rw [if_pos hax]
        constructor
        · intro hsc
          exact absurd hsc (by simp)
        · intro hall
          exact absurd (by simpa using hax) (hall 0 (by simp))
      · rw [if_neg hax]
        rw [ih fs hlen2]
        constructor
        · intro hall i hi
          cases i with
          | zero => simpa using hax
          | succ i2 => simpa using hall i2 (by simpa using hi)
        · intro hall i hi
          have := hall (i + 1) (by simpa using hi)
          simpa using this

/-- C7 (amended): `lookup(h)` scans the 256 slots in index order and
returns the frequency of the first matching slot — the matching slot with
the lowest index — and reports not-present exactly when no slot holds
`h`. -/
theorem c7_amended (r : GhostFreqRing) (h f : Nat)
    (hlen : r.freqs.length = r.hashes.length) :
    (ringLookup r h = some f ↔
      ∃ i, i < r.hashes.length ∧ r.hashes.getD i 0 = h
        ∧ (∀ j, j < i → r.hashes.getD j 0 ≠ h) ∧ f = r.freqs.getD i 0)
    ∧ (ringLookup r h = none ↔ ∀ i, i < r.hashes.length → r.hashes.getD i 0 ≠ h) :=
  ⟨scanRing_some r.hashes r.freqs h f hlen, scanRing_none r.hashes r.freqs h hlen⟩

theorem c7_amended_witness : ringLookup c7ring 5 = some 2 :=
  (c7_amended c7ring 5 2 (by decide)).1.mpr
    ⟨0, by decide, by decide, (fun j hj => absurd hj (Nat.not_lt_zero j)), by decide⟩

end Multicache

namespace Multicache

theorem mapSize_delete (m : List (Nat × Nat)) (k : Nat) :
    mapSize (mapDelete m k) ≤ mapSize m :=
  List.length_filter_le _ _

theorem mapSize_store (m : List (Nat × Nat)) (k i : Nat) :
    mapSize (mapStore m k i) ≤ mapSize m + 1 := by
  unfold mapStore mapSize
  split
  · rw [List.length_map]
    exact Nat.le_succ _
  · rw [List.length_append]
    exact Nat.le_refl _

theorem sendToDeathRow_mapSize (s : SState) (eid : Nat) :
    mapSize (sendToDeathRow s eid).shard.entries ≤ mapSize s.shard.entries := by
  unfold sendToDeathRow
  dsimp only
  cases hold : s.shard.deathRow.getD s.shard.deathRowPos none with
  | none => exact Nat.le_refl _
  | some oldId =>
    dsimp only
    rw [(addToGhost_frame
      { s with shard := { s.shard with
          entries := mapDelete s.shard.entries (getE s.shard.pool oldId).key } }
      (getE s.shard.pool oldId).hash (getE s.shard.pool oldId).peakFreq).2.1]
    exact mapSize_delete _ _

theorem evictFromMain_mapSize (fuel : Nat) :
    ∀ (s s' : SState), evictFromMain fuel s = Res.ok s' →
    mapSize s'.shard.entries ≤ mapSize s.shard.entries := by
  induction fuel with
  | zero => intro s s' h; exact absurd h (by simp [evictFromMain])
  | succ n ih =>
    intro s s' h
    unfold evictFromMain at h
    by_cases hlen : s.shard.main.len > 0
    · rw [if_pos hlen] at h
      cases hhead : s.shard.main.head with
      | none => rw [hhead] at h; exact absurd h (by simp)
      | some eid =>
        rw [hhead] at h
        dsimp only at h
        by_cases hf : (getE s.shard.pool eid).freq = 0
        · rw [if_pos hf] at h
          by_cases hpk : (getE (listRemove s.shard.pool s.shard.main eid).1 eid).peakFreq ≥ 4
          · rw [if_pos hpk] at h
            cases h
            exact Nat.le_refl _
          · rw [if_neg hpk] at h
            cases h
            exact sendToDeathRow_mapSize
              { s with shard := { s.shard with
                  pool := (listRemove s.shard.pool s.shard.main eid).1
                  main := (listRemove s.shard.pool s.shard.main eid).2 } } eid
        · rw [if_neg hf] at h
          have hr := ih _ _ h
          exact hr
    · rw [if_neg hlen] at h
      cases h
      exact Nat.le_refl _

theorem evictFromSmall_mapSize (fuel : Nat) :
    ∀ (s s' : SState), evictFromSmall fuel s = Res.ok s' →
    mapSize s'.shard.entries ≤ mapSize s.shard.entries := by
  induction fuel with
  | zero => intro s s' h; exact absurd h (by simp [evictFromSmall])
  | succ n ih =>
    intro s s' h
    unfold evictFromSmall at h
    by_cases hlen : s.shard.small.len > 0
    · rw [if_pos hlen] at h
      cases hhead : s.shard.small.head with
      | none => rw [hhead] at h; exact absurd h (by simp)
      | some eid =>
        rw [hhead] at h
        dsimp only at h
        by_cases hf : (getE s.shard.pool eid).freq < 2
        · rw [if_pos hf] at h
          cases h
          exact sendToDeathRow_mapSize
            { s with shard := { s.shard with
                pool := (listRemove s.shard.pool s.shard.small eid).1
                small := (listRemove s.shard.pool s.shard.small eid).2 } } eid
        · rw [if_neg hf] at h
          split at h
          · split at h
            · rename_i s2 hem
              have hr := ih _ _ h
              have hm := evictFromMain_mapSize n _ _ hem
              exact Nat.le_trans hr hm
            · exact absurd h (by simp)
            · exact absurd h (by simp)
          · have hr := ih _ _ h
            exact hr
    · rw [if_neg hlen] at h
      cases h
      exact Nat.le_refl _

theorem admissionRound_mapSize (fuel : Nat) (s s' : SState)
    (h : admissionRound fuel s = Res.ok s') :
    mapSize s'.shard.entries ≤ mapSize s.shard.entries := by
  unfold admissionRound at h
  split at h
  · exact evictFromMain_mapSize fuel s s' h
  · split at h
    · exact evictFromSmall_mapSize fuel s s' h
    · cases h
      exact Nat.le_refl _

theorem setWithHash_mapSize (fuel : Nat) (hasher : Nat → Nat) (k v : Nat) (x : Int)
    (hash : Nat) (s s' : SState)
    (hok : setWithHash fuel hasher k v x hash s = Res.ok s') :
    mapSize s'.shard.entries ≤ mapSize s.shard.entries + 1 := by
  unfold setWithHash at hok
  cases hl : mapLoad s.shard.entries k with
  | some eid =>
    rw [hl] at hok
    dsimp only at hok
    cases hok
    exact Nat.le_succ _
  | none =>
    rw [hl] at hok
    dsimp only at hok
    split at hok
    · cases hok
      exact mapSize_store _ _ _
    · by_cases hfull : s.totalEntries ≥ (s.capacityG : Int)
      · rw [if_pos hfull] at hok
        generalize hhash : (if hash = 0 then hasher k else hash) = hval at hok
        split at hok
        · exact absurd hok (by simp)
        · exact absurd hok (by simp)
        rename_i s1 hround
        have hle : mapSize s1.shard.entries ≤ mapSize s.shard.entries := by
          have := admissionRound_mapSize fuel _ _ hround
          rwa [(ghostAdmit_meta _ _ _).2.2.1] at this
        cases hok
        split
        · dsimp only
          exact Nat.le_trans (mapSize_store _ _ _) (Nat.add_le_add_right hle 1)
        · dsimp only
          exact Nat.le_trans (mapSize_store _ _ _) (Nat.add_le_add_right hle 1)
      · rw [if_neg hfull] at hok
        generalize hhash : (if hash = 0 then hasher k else hash) = hval at hok
        dsimp only at hok
        cases hok
        split
        · dsimp only
          exact mapSize_store _ _ _
        · dsimp only
          exact mapSize_store _ _ _

end Multicache

namespace Multicache

theorem resurrect_entries (k : Nat) (s : SState) :
    (resurrectFromDeathRow k s).1.shard.entries = s.shard.entries := by
  unfold resurrectFromDeathRow
  cases hl : mapLoad s.shard.entries k with
  | none => rfl
  | some eid =>
    dsimp only
    split
    · rfl
    · rfl

theorem shardGet_entries (k : Nat) (now : Int) (s : SState) :
    (shardGet k now s).1.shard.entries = s.shard.entries := by
  unfold shardGet
  cases hl : mapLoad s.shard.entries k with
  | none => rfl
  | some eid =>
    dsimp only
    split
    · exact resurrect_entries k s
    · split
      · rfl
      · rfl

theorem shardDelete_mapSize (k : Nat) (s : SState) :
    mapSize (shardDelete k s).shard.entries ≤ mapSize s.shard.entries := by
  unfold shardDelete
  cases hl : mapLoad s.shard.entries k with
  | none => exact Nat.le_refl _
  | some eid =>
    dsimp only
    split
    · exact mapSize_delete _ _
    · exact mapSize_delete _ _

theorem sum_mapSize_set_le (l : List Shard) (i : Nat) (x d : Shard)
    (h : mapSize x.entries ≤ mapSize (l.getD i d).entries + 1) :
    ((l.set i x).map (fun sh => mapSize sh.entries)).sum
      ≤ (l.map (fun sh => mapSize sh.entries)).sum + 1 := by
  induction l generalizing i with
  | nil => simp
  | cons a l ih =>
    cases i with
    | zero =>
      simp only [List.getD_cons_zero] at h
      simp only [List.set_cons_zero, List.map_cons, List.sum_cons]
      omega
    | succ j =>
      simp only [List.getD_cons_succ] at h
      simp only [List.set_cons_succ, List.map_cons, List.sum_cons]
      have := ih j h
      omega

theorem sum_mapSize_set_le0 (l : List Shard) (i : Nat) (x d : Shard)
    (h : mapSize x.entries ≤ mapSize (l.getD i d).entries) :
    ((l.set i x).map (fun sh => mapSize sh.entries)).sum
      ≤ (l.map (fun sh => mapSize sh.entries)).sum := by
  induction l generalizing i with
  | nil => simp
  | cons a l ih =>
    cases i with
    | zero =>
      simp only [List.getD_cons_zero] at h
      simp only [List.set_cons_zero, List.map_cons, List.sum_cons]
      omega
    | succ j =>
      simp only [List.getD_cons_succ] at h
      simp only [List.set_cons_succ, List.map_cons, List.sum_cons]
      have := ih j h
      omega

theorem putShard_len_le1 (e : Engine) (idx : Nat) (ss : SState)
    (h : mapSize ss.shard.entries ≤ mapSize (takeShard e idx).shard.entries + 1) :
    engineLen (putShard e idx ss) ≤ engineLen e + 1 := by
  unfold engineLen putShard
  dsimp only
  exact sum_mapSize_set_le e.shards idx ss.shard (newShard 0) h

theorem putShard_len_le0 (e : Engine) (idx : Nat) (ss : SState)
    (h : mapSize ss.shard.entries ≤ mapSize (takeShard e idx).shard.entries) :
    engineLen (putShard e idx ss) ≤ engineLen e := by
  unfold engineLen putShard
  dsimp only
  exact sum_mapSize_set_le0 e.shards idx ss.shard (newShard 0) h

theorem engineSet_len (fuel : Nat) (hasher : Nat → Nat) (k v : Nat) (x : Int)
    (e e2 : Engine) (h : engineSet fuel hasher k v x e = Res.ok e2) :
    engineLen e2 ≤ engineLen e + 1 := by
  unfold engineSet at h
  dsimp only at h
  generalize hsw : setWithHash fuel hasher k v x 0 (takeShard e (shardIdx e k)) = r at h
  cases r with
  | panic => exact absurd h (by simp)
  | nofuel => exact absurd h (by simp)
  | ok ss =>
    dsimp only at h
    cases h
    exact putShard_len_le1 e _ ss (setWithHash_mapSize fuel hasher k v x 0 _ ss hsw)

theorem engineGet_len (k : Nat) (now : Int) (e : Engine) :
    engineLen (engineGet k now e).1 ≤ engineLen e := by
  rw [engineGet_after]
  dsimp only
  refine putShard_len_le0 e _ _ ?_
  rw [shardGet_entries]

theorem engineDelete_len (k : Nat) (e : Engine) :
    engineLen (engineDelete k e) ≤ engineLen e := by
  unfold engineDelete
  exact putShard_len_le0 e _ _ (shardDelete_mapSize k _)

theorem engineFlush_len (e : Engine) : engineLen (engineFlush e) = 0 := by
  unfold engineFlush engineLen shardFlush
  dsimp only
  rw [List.map_map]
  induction e.shards with
  | nil => rfl
  | cons a l ih => simpa [mapSize] using ih

theorem engineFetch_len (fuel : Nat) (hasher : Nat → Nat) (k : Nat) (loader : Loader)
    (e e2 : Engine) (h : engineFetch fuel hasher k loader e = Res.ok e2) :
    engineLen e2 ≤ engineLen e + 1 := by
  unfold engineFetch at h
  dsimp only at h
  split at h
  · cases h
    exact Nat.le_trans (engineGet_len k 0 e) (Nat.le_succ _)
  · split at h
    · cases h
      exact Nat.le_trans (Nat.le_trans (engineGet_len k 0 _) (engineGet_len k 0 e))
        (Nat.le_succ _)
    · split at h
      · exact absurd h (by simp)
      · rename_i v err
        split at h
        · cases h
          exact Nat.le_trans (Nat.le_trans (engineGet_len k 0 _) (engineGet_len k 0 e))
            (Nat.le_succ _)
        · have hs := engineSet_len fuel hasher k v 0 _ _ h
          refine Nat.le_trans hs (Nat.add_le_add_right ?_ 1)
          exact Nat.le_trans (engineGet_len k 0 _) (engineGet_len k 0 e)

theorem runOp_len (fuel : Nat) (hasher : Nat → Nat) (op : Op) (e e2 : Engine)
    (h : runOp fuel hasher op e = Res.ok e2) :
    engineLen e2 ≤ engineLen e + countWrites [op] := by
  cases op with
  | set k v =>
    exact engineSet_len fuel hasher k v 0 e e2 h
  | get k now =>
    cases h
    exact Nat.le_trans (engineGet_len k now e) (Nat.le_add_right _ _)
  | del k =>
    cases h
    exact Nat.le_trans (engineDelete_len k e) (Nat.le_add_right _ _)
  | fetch k loader =>
    exact engineFetch_len fuel hasher k loader e e2 h
  | flush =>
    cases h
    rw [engineFlush_len]
    exact Nat.zero_le _

theorem runOps_len (fuel : Nat) (hasher : Nat → Nat) :
    ∀ (ops : List Op) (e e2 : Engine), runOps fuel hasher ops e = Res.ok e2 →
    engineLen e2 ≤ engineLen e + countWrites ops := by
  intro ops
  induction ops with
  | nil =>
    intro e e2 h
    cases h
    exact Nat.le_add_right _ _
  | cons op ops ih =>
    intro e e2 h
    unfold runOps at h
    generalize h1 : runOp fuel hasher op e = r at h
    cases r with
    | panic => exact absurd h (by simp)
    | nofuel => exact absurd h (by simp)
    | ok e1 =>
      have hstep := runOp_len fuel hasher op e e1 h1
      have hrest := ih e1 e2 h
      have hcw : countWrites (op :: ops) = countWrites [op] + countWrites ops := by
        cases op <;> simp [countWrites] <;> omega
      omega

theorem engineLen_newEngine (size n : Nat) : engineLen (newEngine size n) = 0 := by
  unfold engineLen newEngine newShard
  dsimp only
  rw [List.map_replicate]
  simp [mapSize]

/-- C1 (amended): on every operation sequence run from a fresh engine,
`len()` is bounded by the number of `set` and `fetch` operations
executed (each admits at most one map entry; every other operation can
only shrink the maps). -/
theorem c1_amended (fuel : Nat) (hasher : Nat → Nat) (ops : List Op) (size n : Nat)
    (e2 : Engine) (h : runOps fuel hasher ops (newEngine size n) = Res.ok e2) :
    engineLen e2 ≤ countWrites ops := by
  have := runOps_len fuel hasher ops (newEngine size n) e2 h
  rwa [engineLen_newEngine, Nat.zero_add] at this

theorem c1_amended_witness : engineLen c1wE ≤ countWrites [Op.set 1 1] :=
  c1_amended 8 hsh [Op.set 1 1] 2 1 c1wE rfl

end Multicache

namespace Multicache

theorem getE_setE_ne (p : Pool) (i : Nat) (f : GoEntry → GoEntry) (j : Nat)
    (hne : j ≠ i) : getE (setE p i f) j = getE p j := by
  rw [getE_setE, if_neg]
  intro hc
  exact hne hc.1

theorem plinks_setE (p : Pool) (n i : Nat) (f : GoEntry → GoEntry)
    (hp : PLinks p n)
    (hf : ∀ e, (∀ i2, (f e).prev = some i2 → e.prev = some i2 ∨ i2 < n)
        ∧ (∀ i2, (f e).next = some i2 → e.next = some i2 ∨ i2 < n)) :
    PLinks (setE p i f) n := by
  intro j
  rw [getE_setE]
  split
  · constructor
    · intro i2 h2
      rcases (hf (getE p j)).1 i2 h2 with hll | hlt
      · exact (hp j).1 i2 hll
      · exact hlt
    · intro i2 h2
      rcases (hf (getE p j)).2 i2 h2 with hll | hlt
      · exact (hp j).2 i2 hll
      · exact hlt
  · exact hp j

theorem getD_mem_some (dr : List (Option Nat)) (pos i : Nat)
    (h : dr.getD pos none = some i) : some i ∈ dr := by
  by_cases hlt : pos < dr.length
  · rw [List.getD_eq_getElem _ _ hlt] at h
    rw [← h]
    exact List.getElem_mem hlt
  · rw [List.getD_eq_default _ _ (Nat.le_of_not_lt hlt)] at h
    exact absurd h (by simp)

theorem pushBack_below (p : Pool) (l : EntryList) (eid n : Nat)
    (hp : PLinks p n) (hl : LLinks l n) (he : eid < n) :
    PLinks (pushBack p l eid).1 n ∧ LLinks (pushBack p l eid).2 n
    ∧ (∀ j, n ≤ j → getE (pushBack p l eid).1 j = getE p j) := by
  unfold pushBack
  dsimp only
  cases ht : l.tail with
  | none =>
    dsimp only
    refine ⟨?_, ⟨?_, ?_⟩, ?_⟩
    · refine plinks_setE p n eid _ hp ?_
      intro e
      exact ⟨fun i2 h2 => absurd h2 (by simp), fun i2 h2 => absurd h2 (by simp)⟩
    · intro i hi
      cases hi
      exact he
    · intro i hi
      cases hi
      exact he
    · intro j hj
      exact getE_setE_ne p eid _ j (by omega)
  | some t =>
    dsimp only
    have htn : t < n := hl.2 t ht
    refine ⟨?_, ⟨?_, ?_⟩, ?_⟩
    · refine plinks_setE _ n t _ ?_ ?_
      · refine plinks_setE p n eid _ hp ?_
        intro e
        constructor
        · intro i2 h2
          have h3 : some t = some i2 := h2
          cases h3
          exact Or.inr htn
        · intro i2 h2
          exact absurd h2 (by simp)
      · intro e
        constructor
        · intro i2 h2
          exact Or.inl h2
        · intro i2 h2
          have h3 : some eid = some i2 := h2
          cases h3
          exact Or.inr he
    · intro i hi
      exact hl.1 i hi
    · intro i hi
      cases hi
      exact he
    · intro j hj
      rw [getE_setE_ne _ t _ j (by omega), getE_setE_ne p eid _ j (by omega)]

theorem listRemove_below (p : Pool) (l : EntryList) (eid n : Nat)
    (hp : PLinks p n) (hl : LLinks l n) :
    PLinks (listRemove p l eid).1 n ∧ LLinks (listRemove p l eid).2 n
    ∧ (eid < n → ∀ j, n ≤ j → getE (listRemove p l eid).1 j = getE p j) := by
  unfold listRemove
  dsimp only
  cases hprev : (getE p eid).prev with
  | none =>
    dsimp only
    cases hnext : (getE p eid).next with
    | none =>
      dsimp only
      refine ⟨?_, ⟨?_, ?_⟩, ?_⟩
      · refine plinks_setE p n eid _ hp ?_
        intro e
        exact ⟨fun i2 h2 => absurd h2 (by simp), fun i2 h2 => absurd h2 (by simp)⟩
      · intro i hi
        exact absurd hi (by simp)
      · intro i hi
        exact (hp eid).1 i hi
      · intro hlt j hj
        exact getE_setE_ne p eid _ j (by omega)
    | some nx =>
      dsimp only
      have hnx : nx < n := (hp eid).2 nx hnext
      refine ⟨?_, ⟨?_, ?_⟩, ?_⟩
      · refine plinks_setE _ n eid _ ?_ ?_
        · refine plinks_setE p n nx _ hp ?_
          intro e
          constructor
          · intro i2 h2
            rw [hprev] at h2
            exact absurd h2 (by simp)
          · intro i2 h2
            exact Or.inl h2
        · intro e
          exact ⟨fun i2 h2 => absurd h2 (by simp), fun i2 h2 => absurd h2 (by simp)⟩
      · intro i hi
        cases hi
        exact hnx
      · intro i hi
        exact hl.2 i hi
      · intro hlt j hj
        rw [getE_setE_ne _ eid _ j (by omega), getE_setE_ne p nx _ j (by omega)]
  | some pr =>
    dsimp only
    have hpr : pr < n := (hp eid).1 pr hprev
    have hp1 : PLinks (setE p pr (fun x => { x with next := (getE p eid).next })) n := by
      refine plinks_setE p n pr _ hp ?_
      intro e
      constructor
      · intro i2 h2
        exact Or.inl h2
      · intro i2 h2
        exact Or.inr ((hp eid).2 i2 h2)
    cases hnext : (getE (setE p pr (fun x => { x with next := (getE p eid).next })) eid).next with
    | none =>
      dsimp only
      refine ⟨?_, ⟨?_, ?_⟩, ?_⟩
      · refine plinks_setE _ n eid _ hp1 ?_
        intro e
        exact ⟨fun i2 h2 => absurd h2 (by simp), fun i2 h2 => absurd h2 (by simp)⟩
      · intro i hi
        exact hl.1 i hi
      · intro i hi
        exact (hp1 eid).1 i hi
      · intro hlt j hj
        rw [getE_setE_ne _ eid _ j (by omega), getE_setE_ne p pr _ j (by omega)]
    | some nx =>
      dsimp only
      have hnx : nx < n := (hp1 eid).2 nx hnext
      refine ⟨?_, ⟨?_, ?_⟩, ?_⟩
      · refine plinks_setE _ n eid _ ?_ ?_
        · refine plinks_setE _ n nx _ hp1 ?_
          intro e
          constructor
          · intro i2 h2
            exact Or.inr ((hp1 eid).1 i2 h2)
          · intro i2 h2
            exact Or.inl h2
        · intro e
          exact ⟨fun i2 h2 => absurd h2 (by simp), fun i2 h2 => absurd h2 (by simp)⟩
      · intro i hi
        exact hl.1 i hi
      · intro i hi
        exact hl.2 i hi
      · intro hlt j hj
        rw [getE_setE_ne _ eid _ j (by omega), getE_setE_ne _ nx _ j (by omega),
          getE_setE_ne p pr _ j (by omega)]

end Multicache

namespace Multicache

theorem plinks_setE_keep (p : Pool) (n i : Nat) (f : GoEntry → GoEntry)
    (hp : PLinks p n)
    (hf : ∀ e, (f e).prev = e.prev ∧ (f e).next = e.next) :
    PLinks (setE p i f) n := by
  refine plinks_setE p n i f hp ?_
  intro e
  constructor
  · intro i2 h2
    rw [(hf e).1] at h2
    exact Or.inl h2
  · intro i2 h2
    rw [(hf e).2] at h2
    exact Or.inl h2

theorem dlinks_set (dr : List (Option Nat)) (n pos eid : Nat)
    (hd : DLinks dr n) (he : eid < n) :
    DLinks (dr.set pos (some eid)) n := by
  intro sl hsl i hi
  rcases List.mem_or_eq_of_mem_set hsl with hmem | heq
  · exact hd sl hmem i hi
  · cases heq
    cases hi
    exact he

theorem sendToDeathRow_below (s : SState) (eid n : Nat)
    (hp : PLinks s.shard.pool n) (hd : DLinks s.shard.deathRow n) (he : eid < n) :
    PLinks (sendToDeathRow s eid).shard.pool n
    ∧ DLinks (sendToDeathRow s eid).shard.deathRow n
    ∧ (∀ j, n ≤ j → getE (sendToDeathRow s eid).shard.pool j = getE s.shard.pool j)
    ∧ (sendToDeathRow s eid).shard.small = s.shard.small
    ∧ (sendToDeathRow s eid).shard.main = s.shard.main := by
  unfold sendToDeathRow
  dsimp only
  cases hold : s.shard.deathRow.getD s.shard.deathRowPos none with
  | none =>
    dsimp only
    refine ⟨?_, ?_, ?_, rfl, rfl⟩
    · refine plinks_setE_keep _ n eid _ hp ?_
      intro e
      exact ⟨rfl, rfl⟩
    · exact dlinks_set _ n _ eid hd he
    · intro j hj
      exact getE_setE_ne _ eid _ j (by omega)
  | some oldId =>
    dsimp only
    have hon : oldId < n := hd _ (getD_mem_some _ _ _ hold) oldId rfl
    have hfr := addToGhost_frame
      { s with shard := { s.shard with
          entries := mapDelete s.shard.entries (getE s.shard.pool oldId).key } }
      (getE s.shard.pool oldId).hash (getE s.shard.pool oldId).peakFreq
    refine ⟨?_, ?_, ?_, ?_, ?_⟩
    · rw [hfr.1]
      refine plinks_setE_keep _ n eid _ ?_ (fun e => ⟨rfl, rfl⟩)
      exact plinks_setE_keep _ n oldId _ hp (fun e => ⟨rfl, rfl⟩)
    · rw [hfr.2.2.2.2.1]
      exact dlinks_set _ n _ eid hd he
    · intro j hj
      rw [hfr.1, getE_setE_ne _ eid _ j (by omega), getE_setE_ne _ oldId _ j (by omega)]
    · exact hfr.2.2.1
    · exact hfr.2.2.2.1

theorem getE_append_lt (p : Pool) (q : Pool) (j : Nat) (h : j < p.length) :
    getE (p ++ q) j = getE p j := by
  unfold getE
  rw [List.getD_eq_getElem _ _ (by simp; omega), List.getD_eq_getElem _ _ (by simpa using h)]
  exact List.getElem_append_left (by simpa using h)

theorem getE_append_gt (p : Pool) (ent : GoEntry) (j : Nat) (h : p.length + 1 ≤ j) :
    getE (p ++ [ent]) j = e0 := by
  unfold getE
  rw [List.getD_eq_default]
  simpa using h

theorem plinks_append (p : Pool) (ent : GoEntry) (n : Nat)
    (hp : PLinks p n)
    (hent : ent.prev = none ∧ ent.next = none) :
    PLinks (p ++ [ent]) n := by
  intro j
  rcases Nat.lt_trichotomy j p.length with hlt | heq | hgt
  · rw [getE_append_lt p [ent] j hlt]
    exact hp j
  · rw [heq, getE_append]
    constructor
    · intro i hi
      rw [hent.1] at hi
      exact absurd hi (by simp)
    · intro i hi
      rw [hent.2] at hi
      exact absurd hi (by simp)
  · rw [getE_append_gt p ent j (by omega)]
    constructor
    · intro i hi
      exact absurd hi (by simp [e0])
    · intro i hi
      exact absurd hi (by simp [e0])

end Multicache

namespace Multicache

theorem evictFromMain_below (n : Nat) (fuel : Nat) :
    ∀ (s s' : SState), evictFromMain fuel s = Res.ok s' →
    PLinks s.shard.pool n → LLinks s.shard.small n → LLinks s.shard.main n →
    DLinks s.shard.deathRow n →
    PLinks s'.shard.pool n ∧ LLinks s'.shard.small n ∧ LLinks s'.shard.main n
    ∧ DLinks s'.shard.deathRow n
    ∧ (∀ j, n ≤ j → getE s'.shard.pool j = getE s.shard.pool j) := by
  induction fuel with
  | zero =>
    intro s s' h _ _ _ _
    exact absurd h (by simp [evictFromMain])
  | succ m ih =>
    intro s s' h hp hs hm hd
    unfold evictFromMain at h
    by_cases hlen : s.shard.main.len > 0
    · rw [if_pos hlen] at h
      cases hhead : s.shard.main.head with
      | none => rw [hhead] at h; exact absurd h (by simp)
      | some eid =>
        rw [hhead] at h
        dsimp only at h
        have he : eid < n := hm.1 eid hhead
        have hLR := listRemove_below s.shard.pool s.shard.main eid n hp hm
        by_cases hf : (getE s.shard.pool eid).freq = 0
        · rw [if_pos hf] at h
          by_cases hpk : (getE (listRemove s.shard.pool s.shard.main eid).1 eid).peakFreq ≥ 4
          · rw [if_pos hpk] at h
            cases h
            have hp2 : PLinks (setE (listRemove s.shard.pool s.shard.main eid).1 eid
                (fun e => { e with freq := 1, inSmall := true })) n :=
              plinks_setE_keep _ n eid _ hLR.1 (fun e => ⟨rfl, rfl⟩)
            have hPB := pushBack_below _ s.shard.small eid n hp2 hs he
            refine ⟨hPB.1, hPB.2.1, hLR.2.1, hd, ?_⟩
            intro j hj
            rw [hPB.2.2 j hj, getE_setE_ne _ eid _ j (by omega), hLR.2.2 he j hj]
          · rw [if_neg hpk] at h
            cases h
            have hSD := sendToDeathRow_below
              { s with shard := { s.shard with
                  pool := (listRemove s.shard.pool s.shard.main eid).1
                  main := (listRemove s.shard.pool s.shard.main eid).2 } } eid n hLR.1 hd he
            refine ⟨hSD.1, ?_, ?_, hSD.2.1, ?_⟩
            · rw [hSD.2.2.2.1]
              exact hs
            · rw [hSD.2.2.2.2]
              exact hLR.2.1
            · intro j hj
              rw [hSD.2.2.1 j hj, hLR.2.2 he j hj]
        · rw [if_neg hf] at h
          have hp2 : PLinks (setE (listRemove s.shard.pool s.shard.main eid).1 eid
              (fun e => { e with freq := (getE s.shard.pool eid).freq - 1 })) n :=
            plinks_setE_keep _ n eid _ hLR.1 (fun e => ⟨rfl, rfl⟩)
          have hPB := pushBack_below _ (listRemove s.shard.pool s.shard.main eid).2 eid n
            hp2 hLR.2.1 he
          have ihr := ih _ _ h hPB.1 hs hPB.2.1 hd
          refine ⟨ihr.1, ihr.2.1, ihr.2.2.1, ihr.2.2.2.1, ?_⟩
          intro j hj
          rw [ihr.2.2.2.2 j hj, hPB.2.2 j hj, getE_setE_ne _ eid _ j (by omega),
            hLR.2.2 he j hj]
    · rw [if_neg hlen] at h
      cases h
      exact ⟨hp, hs, hm, hd, fun j hj => rfl⟩

theorem evictFromSmall_below (n : Nat) (fuel : Nat) :
    ∀ (s s' : SState), evictFromSmall fuel s = Res.ok s' →
    PLinks s.shard.pool n → LLinks s.shard.small n → LLinks s.shard.main n →
    DLinks s.shard.deathRow n →
    PLinks s'.shard.pool n ∧ LLinks s'.shard.small n ∧ LLinks s'.shard.main n
    ∧ DLinks s'.shard.deathRow n
    ∧ (∀ j, n ≤ j → getE s'.shard.pool j = getE s.shard.pool j) := by
  induction fuel with
  | zero =>
    intro s s' h _ _ _ _
    exact absurd h (by simp [evictFromSmall])
  | succ m ih =>
    intro s s' h hp hs hm hd
    unfold evictFromSmall at h
    by_cases hlen : s.shard.small.len > 0
    · rw [if_pos hlen] at h
      cases hhead : s.shard.small.head with
      | none => rw [hhead] at h; exact absurd h (by simp)
      | some eid =>
        rw [hhead] at h
        dsimp only at h
        have he : eid < n := hs.1 eid hhead
        have hLR := listRemove_below s.shard.pool s.shard.small eid n hp hs
        by_cases hf : (getE s.shard.pool eid).freq < 2
        · rw [if_pos hf] at h
          cases h
          have hSD := sendToDeathRow_below
            { s with shard := { s.shard with
                pool := (listRemove s.shard.pool s.shard.small eid).1
                small := (listRemove s.shard.pool s.shard.small eid).2 } } eid n hLR.1 hd he
          refine ⟨hSD.1, ?_, ?_, hSD.2.1, ?_⟩
          · rw [hSD.2.2.2.1]
            exact hLR.2.1
          · rw [hSD.2.2.2.2]
            exact hm
          · intro j hj
            rw [hSD.2.2.1 j hj, hLR.2.2 he j hj]
        · rw [if_neg hf] at h
          have hp2 : PLinks (setE (listRemove s.shard.pool s.shard.small eid).1 eid
              (fun e => { e with freq := 0, inSmall := false })) n :=
            plinks_setE_keep _ n eid _ hLR.1 (fun e => ⟨rfl, rfl⟩)
          have hPB := pushBack_below _ s.shard.main eid n hp2 hm he
          split at h
          · split at h
            · rename_i s2 hem
              have hEM := evictFromMain_below n m _ _ hem hPB.1 hLR.2.1 hPB.2.1 hd
              have ihr := ih _ _ h hEM.1 hEM.2.1 hEM.2.2.1 hEM.2.2.2.1
              refine ⟨ihr.1, ihr.2.1, ihr.2.2.1, ihr.2.2.2.1, ?_⟩
              intro j hj
              rw [ihr.2.2.2.2 j hj, hEM.2.2.2.2 j hj, hPB.2.2 j hj,
                getE_setE_ne _ eid _ j (by omega), hLR.2.2 he j hj]
            · exact absurd h (by simp)
            · exact absurd h (by simp)
          · have ihr := ih _ _ h hPB.1 hLR.2.1 hPB.2.1 hd
            refine ⟨ihr.1, ihr.2.1, ihr.2.2.1, ihr.2.2.2.1, ?_⟩
            intro j hj
            rw [ihr.2.2.2.2 j hj, hPB.2.2 j hj, getE_setE_ne _ eid _ j (by omega),
              hLR.2.2 he j hj]
    · rw [if_neg hlen] at h
      cases h
      exact ⟨hp, hs, hm, hd, fun j hj => rfl⟩

theorem admissionRound_below (n fuel : Nat) (s s' : SState)
    (h : admissionRound fuel s = Res.ok s')
    (hp : PLinks s.shard.pool n) (hs : LLinks s.shard.small n)
    (hm : LLinks s.shard.main n) (hd : DLinks s.shard.deathRow n) :
    PLinks s'.shard.pool n ∧ LLinks s'.shard.small n ∧ LLinks s'.shard.main n
    ∧ DLinks s'.shard.deathRow n
    ∧ (∀ j, n ≤ j → getE s'.shard.pool j = getE s.shard.pool j) := by
  unfold admissionRound at h
  split at h
  · exact evictFromMain_below n fuel s s' h hp hs hm hd
  · split at h
    · exact evictFromSmall_below n fuel s s' h hp hs hm hd
    · cases h
      exact ⟨hp, hs, hm, hd, fun j hj => rfl⟩

end Multicache

namespace Multicache

theorem ghostAdmit_links (h eid n : Nat) (s : SState)
    (hp : PLinks s.shard.pool n) :
    PLinks (ghostAdmit h eid s).shard.pool n
    ∧ (ghostAdmit h eid s).shard.small = s.shard.small
    ∧ (ghostAdmit h eid s).shard.main = s.shard.main
    ∧ (ghostAdmit h eid s).shard.deathRow = s.shard.deathRow := by
  unfold ghostAdmit
  dsimp only
  split
  · split
    · refine ⟨?_, rfl, rfl, rfl⟩
      dsimp only
      refine plinks_setE_keep _ n eid _ ?_ (fun e => ⟨rfl, rfl⟩)
      exact plinks_setE_keep _ n eid _ hp (fun e => ⟨rfl, rfl⟩)
    · refine ⟨?_, rfl, rfl, rfl⟩
      dsimp only
      exact plinks_setE_keep _ n eid _ hp (fun e => ⟨rfl, rfl⟩)
  · refine ⟨?_, rfl, rfl, rfl⟩
    dsimp only
    exact plinks_setE_keep _ n eid _ hp (fun e => ⟨rfl, rfl⟩)

theorem ghostAdmit_inSmall_hit (h eid : Nat) (s : SState)
    (hlt : eid < s.shard.pool.length)
    (hg : (bloomContains s.shard.ghostActive h || bloomContains s.shard.ghostAging h) = true) :
    (getE (ghostAdmit h eid s).shard.pool eid).inSmall = false := by
  unfold ghostAdmit
  dsimp only
  have hx : (decide ¬((bloomContains s.shard.ghostActive h
      || bloomContains s.shard.ghostAging h) = true)) = false := by
    rw [hg]
    decide
  simp only [hx]
  have hflag : (getE (setE s.shard.pool eid (fun e =>
      { e with inSmall := false })) eid).inSmall = false := by
    rw [getE_setE, if_pos ⟨rfl, hlt⟩]
  rw [if_pos (show ¬((getE (setE s.shard.pool eid (fun e =>
      { e with inSmall := false })) eid).inSmall = true) from by rw [hflag]; simp)]
  cases hr : ringLookup s.shard.ghostFreqRng h with
  | some pk =>
    dsimp only
    rw [getE_setE, if_pos ⟨rfl, by rw [setE_length]; exact hlt⟩]
    exact hflag
  | none =>
    dsimp only
    exact hflag

theorem ghostAdmit_inSmall_miss (h eid : Nat) (s : SState)
    (hlt : eid < s.shard.pool.length)
    (hg : (bloomContains s.shard.ghostActive h || bloomContains s.shard.ghostAging h) = false) :
    (getE (ghostAdmit h eid s).shard.pool eid).inSmall = true := by
  unfold ghostAdmit
  dsimp only
  have hx : (decide ¬((bloomContains s.shard.ghostActive h
      || bloomContains s.shard.ghostAging h) = true)) = true := by
    rw [hg]
    decide
  simp only [hx]
  have hflag : (getE (setE s.shard.pool eid (fun e =>
      { e with inSmall := true })) eid).inSmall = true := by
    rw [getE_setE, if_pos ⟨rfl, hlt⟩]
  rw [if_neg (show ¬¬((getE (setE s.shard.pool eid (fun e =>
      { e with inSmall := true })) eid).inSmall = true) from by rw [hflag]; simp)]
  exact hflag

end Multicache

namespace Multicache

/-- C2 (amended): for a set of a key absent from its shard map, the ghost
filters decide the queue only when the engine is at global capacity: on a
full engine a ghost hit admits the new entry at the tail of main with
`inSmall` clear and a ghost miss admits it at the tail of small with
`inSmall` set; below capacity the filters are not consulted and the entry
always joins the tail of small, warm or not. -/
theorem c2_amended (fuel : Nat) (hasher : Nat → Nat) (k v : Nat) (x : Int) (hash : Nat)
    (s s' : SState)
    (hl : mapLoad s.shard.entries k = none)
    (hlb : LinksBelow s.shard s.shard.pool.length)
    (hok : setWithHash fuel hasher k v x hash s = Res.ok s') :
    (s.totalEntries ≥ (s.capacityG : Int) →
      ((bloomContains s.shard.ghostActive (if hash = 0 then hasher k else hash)
          || bloomContains s.shard.ghostAging (if hash = 0 then hasher k else hash)) = true →
        s'.shard.main.tail = some s.shard.pool.length
        ∧ (getE s'.shard.pool s.shard.pool.length).inSmall = false)
      ∧ ((bloomContains s.shard.ghostActive (if hash = 0 then hasher k else hash)
          || bloomContains s.shard.ghostAging (if hash = 0 then hasher k else hash)) = false →
        s'.shard.small.tail = some s.shard.pool.length
        ∧ (getE s'.shard.pool s.shard.pool.length).inSmall = true))
    ∧ (¬ s.totalEntries ≥ (s.capacityG : Int) →
        s'.shard.small.tail = some s.shard.pool.length
        ∧ (getE s'.shard.pool s.shard.pool.length).inSmall = true) := by
  obtain ⟨hpl, hsl, hml, hdl⟩ := hlb
  unfold setWithHash at hok
  rw [hl] at hok
  dsimp only at hok
  generalize hhash : (if hash = 0 then hasher k else hash) = hval at hok ⊢
  split at hok
  · rename_i hcond
    cases hok
    constructor
    · intro hfull
      exact absurd hfull hcond.2
    · intro hnfull
      constructor
      · exact pushBack_tail _ _ _
      · rw [((sameNonLink_pushBack _ _ _) _).2.2.2.2.2.2.1, getE_setE, if_pos ⟨rfl, by simp⟩]
  · by_cases hfull : s.totalEntries ≥ (s.capacityG : Int)
    · rw [if_pos hfull] at hok
      split at hok
      · exact absurd hok (by simp)
      · exact absurd hok (by simp)
      rename_i s1 hround
      have hppend : PLinks (s.shard.pool ++ [mkEnt k v hval x]) s.shard.pool.length :=
        plinks_append _ _ _ hpl ⟨rfl, rfl⟩
      have hAR := admissionRound_below s.shard.pool.length fuel _ s1 hround
        ((ghostAdmit_links hval _ _ _ hppend).1)
        (by rw [(ghostAdmit_links hval _ _ _ hppend).2.1]; exact hsl)
        (by rw [(ghostAdmit_links hval _ _ _ hppend).2.2.1]; exact hml)
        (by rw [(ghostAdmit_links hval _ _ _ hppend).2.2.2]; exact hdl)
      have hframe := hAR.2.2.2.2 s.shard.pool.length (Nat.le_refl _)
      cases hok
      constructor
      · intro _
        constructor
        · intro hg
          have hflag : (getE s1.shard.pool s.shard.pool.length).inSmall = false := by
            rw [hframe]
            exact ghostAdmit_inSmall_hit hval _ _ (by simp) hg
          rw [hflag]
          constructor
          · rw [if_neg (by simp)]
            exact pushBack_tail _ _ _
          · rw [if_neg (by simp)]
            dsimp only
            rw [((sameNonLink_pushBack _ _ _) _).2.2.2.2.2.2.1]
            exact hflag
        · intro hg
          have hflag : (getE s1.shard.pool s.shard.pool.length).inSmall = true := by
            rw [hframe]
            exact ghostAdmit_inSmall_miss hval _ _ (by simp) hg
          rw [hflag]
          constructor
          · rw [if_pos rfl]
            exact pushBack_tail _ _ _
          · rw [if_pos rfl]
            dsimp only
            rw [((sameNonLink_pushBack _ _ _) _).2.2.2.2.2.2.1]
            exact hflag
      · intro hnf
        exact absurd hfull hnf
    · rw [if_neg hfull] at hok
      dsimp only at hok
      cases hok
      have hflag2 : (getE (setE (s.shard.pool ++ [mkEnt k v hval x]) s.shard.pool.length
          (fun e => { e with inSmall := true })) s.shard.pool.length).inSmall = true := by
        rw [getE_setE, if_pos ⟨rfl, by simp⟩]
      constructor
      · intro hfg
        exact absurd hfg hfull
      · intro _
        constructor
        · rw [hflag2, if_pos rfl]
          exact pushBack_tail _ _ _
        · rw [hflag2, if_pos rfl]
          dsimp only
          rw [((sameNonLink_pushBack _ _ _) _).2.2.2.2.2.2.1]
          exact hflag2

end Multicache

namespace Multicache

theorem c2_amended_witness :
    c2wS2.shard.small.tail = some 0 ∧ (getE c2wS2.shard.pool 0).inSmall = true := by
  have hlb : LinksBelow c2wS.shard c2wS.shard.pool.length := by
    refine ⟨?_, ⟨?_, ?_⟩, ⟨?_, ?_⟩, ?_⟩
    · intro j
      constructor
      · intro i hi
        rw [show getE c2wS.shard.pool j = e0 from by simp [c2wS, newShard, getE]] at hi
        exact absurd hi (by simp [e0])
      · intro i hi
        rw [show getE c2wS.shard.pool j = e0 from by simp [c2wS, newShard, getE]] at hi
        exact absurd hi (by simp [e0])
    · intro i hi
      exact Option.noConfusion hi
    · intro i hi
      exact Option.noConfusion hi
    · intro i hi
      exact Option.noConfusion hi
    · intro i hi
      exact Option.noConfusion hi
    · intro sl hsl i hi
      have h2 := List.eq_of_mem_replicate (by simpa [c2wS, newShard] using hsl)
      rw [h2] at hi
      exact Option.noConfusion hi
  have hmain := c2_amended 8 hsh 1 5 0 0 c2wS c2wS2 rfl hlb rfl
  exact (hmain.1 (by decide)).2 (by decide)

end Multicache

namespace Multicache

theorem c8_main_eviction_witness :
    ∃ s', evictFromMain 1 c8wS = Res.ok s'
      ∧ s'.shard.small.tail = some 0
      ∧ (getE s'.shard.pool 0).freq = 1
      ∧ (getE s'.shard.pool 0).inSmall = true
      ∧ s'.shard.main.len = c8wS.shard.main.len - 1
      ∧ s'.shard.entries = c8wS.shard.entries
      ∧ s'.shard.deathRow = c8wS.shard.deathRow
      ∧ s'.totalEntries = c8wS.totalEntries :=
  (c8_main_eviction 0 c8wS 0 (by decide) (by decide) (by decide) (by decide)
    (by decide)).1 (by decide)

theorem c10_amended_witness :
    ∃ s', setWithHash 4 hsh 1 9 0 0 c10wS = Res.ok s'
      ∧ s'.shard.small = c10wS.shard.small
      ∧ s'.shard.main = c10wS.shard.main
      ∧ s'.shard.deathRow = c10wS.shard.deathRow
      ∧ s'.shard.entries = c10wS.shard.entries
      ∧ s'.totalEntries = c10wS.totalEntries
      ∧ (getE s'.shard.pool 0).onDeathRow = true
      ∧ (getE s'.shard.pool 0).value = 9
      ∧ (getE s'.shard.pool 0).expiryNano = 0
      ∧ (getE s'.shard.pool 0).freq =
          (if (getE c10wS.shard.pool 0).freq < maxFreq then (getE c10wS.shard.pool 0).freq + 1
           else (getE c10wS.shard.pool 0).freq)
      ∧ (∀ j, j ≠ 0 → getE s'.shard.pool j = getE c10wS.shard.pool j)
      ∧ (shardGet 1 0 s').2.2 = true
      ∧ (shardGet 1 0 s').2.1 = 9
      ∧ (getE (shardGet 1 0 s').1.shard.pool 0).onDeathRow = false
      ∧ (shardGet 1 0 s').1.shard.main.tail = some 0 :=
  c10_amended 4 hsh 1 9 0 0 c10wS 0 (by decide) (by decide) (by decide)

end Multicache

namespace Multicache

theorem chain'_transfer (p q : Pool) :
    ∀ (xs : List Nat), List.Chain' (NextOf p) xs →
    (∀ i ∈ xs.dropLast, (getE q i).next = (getE p i).next) →
    (∀ i ∈ xs.tail, (getE q i).prev = (getE p i).prev) →
    List.Chain' (NextOf q) xs := by
  intro xs
  induction xs with
  | nil =>
    intro _ _ _
    exact List.chain'_nil
  | cons a l ih =>
    cases l with
    | nil =>
      intro _ _ _
      exact List.chain'_singleton a
    | cons b l2 =>
      intro hch hn hp2
      rw [List.chain'_cons] at hch ⊢
      constructor
      · constructor
        · rw [hn a (by simp)]
          exact hch.1.1
        · rw [hp2 b (by simp)]
          exact hch.1.2
      · refine ih hch.2 ?_ ?_
        · intro i hi
          refine hn i ?_
          simp only [List.dropLast_cons₂, List.mem_cons]
          right
          exact hi
        · intro i hi
          exact hp2 i (List.mem_cons_of_mem b hi)

theorem getLast?_not_mem_dropLast (xs : List Nat) (t : Nat)
    (hnd : xs.Nodup) (hgl : xs.getLast? = some t) : t ∉ xs.dropLast := by
  have hsplit : xs.dropLast ++ [t] = xs := List.dropLast_append_getLast? t hgl
  intro hmem
  have hnd2 : (xs.dropLast ++ [t]).Nodup := by
    rw [hsplit]
    exact hnd
  rw [List.nodup_append] at hnd2
  exact hnd2.2.2 hmem (by simp)

theorem pushBack_repr (p : Pool) (l : EntryList) (xs : List Nat) (eid : Nat)
    (hr : ListRepr p l xs)
    (hnd : xs.Nodup)
    (hmem : eid ∉ xs)
    (hlt : eid < p.length)
    (hxl : ∀ i ∈ xs, i < p.length) :
    ListRepr (pushBack p l eid).1 (pushBack p l eid).2 (xs ++ [eid]) := by
  obtain ⟨hh, ht, hlen, hch, hpn, htn⟩ := hr
  unfold pushBack
  dsimp only
  cases htl : l.tail with
  | none =>
    have hxs : xs = [] := by
      rw [htl] at ht
      exact List.getLast?_eq_none_iff.mp ht.symm
    subst hxs
    refine ⟨rfl, rfl, ?_, List.chain'_singleton eid, ?_, ?_⟩
    · rw [hlen]
      simp
    · intro a ha
      cases ha
      rw [getE_setE, if_pos ⟨rfl, hlt⟩]
    · intro a ha
      cases ha
      rw [getE_setE, if_pos ⟨rfl, hlt⟩]
  | some t =>
    have hgl : xs.getLast? = some t := by rw [← ht, htl]
    have hxne : xs ≠ [] := by
      intro hx
      rw [hx] at hgl
      exact absurd hgl (by simp)
    have htmem : t ∈ xs := by
      obtain ⟨h2, heq⟩ := List.mem_getLast?_eq_getLast (show t ∈ xs.getLast? from hgl)
      rw [heq]
      exact List.getLast_mem h2
    have htne : t ≠ eid := fun h2 => hmem (h2 ▸ htmem)
    have htlt : t < p.length := hxl t htmem
    have hgeid : getE (setE (setE p eid (fun e => { e with prev := some t, next := none })) t
        (fun e => { e with next := some eid })) eid
        = { getE p eid with prev := some t, next := none } := by
      rw [getE_setE_ne _ t _ eid (fun h2 => htne h2.symm), getE_setE, if_pos ⟨rfl, hlt⟩]
    have hget : getE (setE (setE p eid (fun e => { e with prev := some t, next := none })) t
        (fun e => { e with next := some eid })) t
        = { getE (setE p eid (fun e => { e with prev := some t, next := none })) t
            with next := some eid } := by
      rw [getE_setE, if_pos ⟨rfl, by rw [setE_length]; exact htlt⟩]
    have hgoth : ∀ j, j ≠ eid → j ≠ t →
        getE (setE (setE p eid (fun e => { e with prev := some t, next := none })) t
          (fun e => { e with next := some eid })) j = getE p j := by
      intro j hj1 hj2
      rw [getE_setE_ne _ t _ j hj2, getE_setE_ne _ eid _ j hj1]
    have hgett : getE (setE p eid (fun e => { e with prev := some t, next := none })) t
        = getE p t := getE_setE_ne _ eid _ t htne
    refine ⟨?_, ?_, ?_, ?_, ?_, ?_⟩
    · rw [hh]
      cases xs with
      | nil => exact absurd rfl hxne
      | cons a l2 => rfl
    · rw [List.getLast?_concat]
    · rw [hlen, List.length_append, List.length_singleton]
      push_cast
      omega
    · rw [List.chain'_append]
      refine ⟨?_, List.chain'_singleton eid, ?_⟩
      · refine chain'_transfer p _ xs hch ?_ ?_
        · intro i hi
          have hit : i ≠ t := by
            intro h2
            exact getLast?_not_mem_dropLast xs t hnd hgl (h2 ▸ hi)
          have hie : i ≠ eid := by
            intro h2
            exact hmem (h2 ▸ List.dropLast_subset xs hi)
          rw [hgoth i hie hit]
        · intro i hi
          have hie : i ≠ eid := by
            intro h2
            exact hmem (h2 ▸ List.tail_subset xs hi)
          by_cases hit : i = t
          · subst hit
            rw [hget, hgett]
          · rw [hgoth i hie hit]
      · intro x hx y hy
        rw [hgl] at hx
        cases hx
        cases hy
        constructor
        · rw [hget, hgett]
        · rw [hgeid]
    · intro a ha
      have ha2 : xs.head? = some a := by
        cases xs with
        | nil => exact absurd rfl hxne
        | cons a2 l2 => exact ha
      have hamem : a ∈ xs := by
        cases xs with
        | nil => exact absurd rfl hxne
        | cons a2 l2 =>
          cases ha2
          exact List.mem_cons_self _ _
      have hae : a ≠ eid := fun h2 => hmem (h2 ▸ hamem)
      by_cases hat : a = t
      · subst hat
        rw [hget, hgett]
        exact hpn a ha2
      · rw [hgoth a hae hat]
        exact hpn a ha2
    · intro a ha
      rw [List.getLast?_concat] at ha
      cases ha
      rw [hgeid]

end Multicache

namespace Multicache

theorem head?_append_left (l1 l2 : List Nat) (h : l1 ≠ []) :
    (l1 ++ l2).head? = l1.head? := by
  cases l1 with
  | nil => exact absurd rfl h
  | cons a l => rfl

theorem mem_of_head?_some (l : List Nat) (a : Nat) (h : l.head? = some a) : a ∈ l := by
  cases l with
  | nil => exact absurd h (by simp)
  | cons b l2 =>
    cases h
    exact List.mem_cons_self _ _

theorem mem_of_getLast?_some (l : List Nat) (a : Nat) (h : l.getLast? = some a) : a ∈ l := by
  obtain ⟨h2, heq⟩ := List.mem_getLast?_eq_getLast (show a ∈ l.getLast? from h)
  rw [heq]
  exact List.getLast_mem h2

end Multicache

namespace Multicache

theorem getE_setE_inSmall (p : Pool) (i : Nat) (f : GoEntry → GoEntry)
    (hf : ∀ e, (f e).inSmall = e.inSmall) (j : Nat) :
    (getE (setE p i f) j).inSmall = (getE p j).inSmall := by
  rw [getE_setE]
  split
  · exact hf _
  · rfl

theorem sendToDeathRow_inSmall (s : SState) (eid j : Nat) :
    (getE (sendToDeathRow s eid).shard.pool j).inSmall
      = (getE s.shard.pool j).inSmall := by
  unfold sendToDeathRow
  dsimp only
  cases hold : s.shard.deathRow.getD s.shard.deathRowPos none with
  | none =>
    dsimp only
    exact getE_setE_inSmall _ eid (fun e => { e with onDeathRow := true })
      (fun e => rfl) j
  | some oldId =>
    dsimp only
    rw [getE_setE_inSmall _ eid (fun e => { e with onDeathRow := true }) (fun e => rfl) j,
      (addToGhost_frame
        { s with shard := { s.shard with
            entries := mapDelete s.shard.entries (getE s.shard.pool oldId).key } }
        (getE s.shard.pool oldId).hash (getE s.shard.pool oldId).peakFreq).1,
      getE_setE_inSmall _ oldId (fun e => { e with onDeathRow := false }) (fun e => rfl) j]

/-- C5 (amended): the death-row transition out of the small queue sets
`on_death_row` but leaves `in_small` untouched (still set): the evicted
head is removed from small (stored length decremented), parked in the
cursor slot, the cursor advances and the global counter is decremented —
so a map-reachable entry can carry `on_death_row` and `in_small`
simultaneously, contradicting the claimed three-way flag pattern. -/
theorem c5_amended (fuel : Nat) (s : SState) (eid : Nat)
    (hlen : s.shard.small.len > 0)
    (hhead : s.shard.small.head = some eid)
    (hfreq : (getE s.shard.pool eid).freq < 2)
    (hins : (getE s.shard.pool eid).inSmall = true)
    (hpos : s.shard.deathRowPos < s.shard.deathRow.length)
    (hlt : eid < s.shard.pool.length) :
    ∃ s2, evictFromSmall (fuel + 1) s = Res.ok s2
      ∧ (getE s2.shard.pool eid).onDeathRow = true
      ∧ (getE s2.shard.pool eid).inSmall = true
      ∧ s2.shard.deathRow.getD s.shard.deathRowPos none = some eid
      ∧ s2.shard.small.len = s.shard.small.len - 1
      ∧ s2.shard.deathRowPos = (s.shard.deathRowPos + 1) % s.shard.deathRow.length
      ∧ s2.totalEntries = s.totalEntries - 1 := by
  have hlt1 : eid < (listRemove s.shard.pool s.shard.small eid).1.length := by
    rw [listRemove_pool_len]
    exact hlt
  have hsend := sendToDeathRow_spec
    { s with shard := { s.shard with
        pool := (listRemove s.shard.pool s.shard.small eid).1
        small := (listRemove s.shard.pool s.shard.small eid).2 } } eid hpos hlt1
  refine ⟨sendToDeathRow
    { s with shard := { s.shard with
        pool := (listRemove s.shard.pool s.shard.small eid).1
        small := (listRemove s.shard.pool s.shard.small eid).2 } } eid,
    ?_, hsend.2.1, ?_, hsend.1, ?_, hsend.2.2.1, hsend.2.2.2.1⟩
  · unfold evictFromSmall
    rw [if_pos hlen, hhead]
    dsimp only
    rw [if_pos hfreq]
  · rw [sendToDeathRow_inSmall]
    have hnl := (sameNonLink_listRemove s.shard.pool s.shard.small eid) eid
    rw [hnl.2.2.2.2.2.2.1]
    exact hins
  · rw [hsend.2.2.2.2.2]
    exact listRemove_len _ _ _

theorem c5_amended_witness :
    ∃ s2, evictFromSmall 1 c5wS = Res.ok s2
      ∧ (getE s2.shard.pool 0).onDeathRow = true
      ∧ (getE s2.shard.pool 0).inSmall = true
      ∧ s2.shard.deathRow.getD c5wS.shard.deathRowPos none = some 0
      ∧ s2.shard.small.len = c5wS.shard.small.len - 1
      ∧ s2.shard.deathRowPos = (c5wS.shard.deathRowPos + 1) % c5wS.shard.deathRow.length
      ∧ s2.totalEntries = c5wS.totalEntries - 1 :=
  c5_amended 0 c5wS 0 (by decide) (by decide) (by decide) (by decide) (by decide) (by decide)

end Multicache
